import Mathlib

/-!
# Verification of the indexstar find-and-aggregate pipeline

A shallow embedding of the core of the indexstar router: the `doFind`
JSON aggregator (`find.go`), the NDJSON streaming aggregator
(`find_ndjson.go`), the circuit-breaker-gated scatter/gather primitive
(`scatter_gather.go`), backend eligibility and matchers (`backend.go`,
the server setup in `loadBackends`/`Serve`), and the provider-info merge
of the `/providers` endpoints (`providers.go`).

Byte strings (`[]byte`, multihashes, peer IDs, context IDs) are embedded
as `List Nat`; Go's `bytes.Equal` is list equality.  Stateful loops are
embedded as folds over the sequence of gathered values; the
scatter/gather channels deliver results in an arbitrary order, so every
theorem quantifies over the list of gathered results.
-/

namespace Indexstar

/-- Byte strings (`[]byte` in Go). -/
abbrev Bytes := List Nat

/-- `peer.AddrInfo` as used inside `model.ProviderResult`: a peer ID and
its addresses. -/
structure AddrInfo where
  ID : Bytes
  Addrs : List String
deriving DecidableEq

/-- `model.ProviderResult`: one provider record inside a multihash entry. -/
structure ProviderResult where
  ContextID : Bytes
  Metadata : Bytes
  Provider : AddrInfo
deriving DecidableEq

/-- `model.MultihashResult`: the provider records found for one multihash. -/
structure MultihashResult where
  Multihash : Bytes
  ProviderResults : List ProviderResult
deriving DecidableEq

/-- `model.EncryptedMultihashResult`: the encrypted value keys found for one
(double-hashed) multihash. -/
structure EncryptedMultihashResult where
  Multihash : Bytes
  EncryptedValueKeys : List Bytes
deriving DecidableEq

/-- `model.FindResponse`: the two parallel result lists of a find response. -/
structure FindResponse where
  MultihashResults : List MultihashResult
  EncryptedMultihashResults : List EncryptedMultihashResult
deriving DecidableEq

/-- The four backend variants of the registry (`main.go` / `server.go`):
a plain backend, a caskade (cascade) backend, a double-hashed backend
(`dhBackend`) and a providers-only backend (`providersBackend`). -/
inductive BackendKind where
  | plain
  | caskade
  | dh
  | providersOnly
deriving DecidableEq

/-- `_, isDhBackend := b.(dhBackend)`. -/
def isDhBackend : BackendKind → Bool
  | .dh => true
  | _ => false

/-- `_, isProvidersBackend := b.(providersBackend)`. -/
def isProvidersBackend : BackendKind → Bool
  | .providersOnly => true
  | _ => false

/-- `_, isCaskade := b.(caskadeBackend)`. -/
def isCaskadeBackend : BackendKind → Bool
  | .caskade => true
  | _ => false

/-- The guard at the top of the `doFind` worker (find.go):
`if (encrypted != isDhBackend) || isProvidersBackend { return nil, nil }`.
The worker proceeds (the request is forwarded) exactly when this is true. -/
def doFindEligible (encrypted : Bool) (k : BackendKind) : Bool :=
  !((encrypted != isDhBackend k) || isProvidersBackend k)

/-- The multihash code `multihash.DBL_SHA2_256` (0x56), the code that marks
a double-hashed key. -/
def DBL_SHA2_256 : Nat := 0x56

/-- A decoded multihash (`multihash.Decode`): its code and digest. -/
structure DecodedMultihash where
  Code : Nat
  Digest : Bytes
deriving DecidableEq

/-- The `encrypted` flag that `Serve` wires into each find route
(`s.findCid(w, r, false)` on `/cid/`, `s.findCid(w, r, true)` on
`/encrypted/cid/`, and likewise for the multihash routes); `none` for
paths that are not find routes. -/
def routeEncrypted : String → Option Bool
  | "/cid/" => some false
  | "/encrypted/cid/" => some true
  | "/multihash/" => some false
  | "/encrypted/multihash/" => some true
  | _ => none

/-- Whether `server.find` forwards a lookup of the decoded multihash `mh`,
arriving with route flag `encrypted`, to a backend of kind `k`: `find`
rejects a zero-length digest with 400 and otherwise passes `encrypted`
through to `doFind`, whose worker applies `doFindEligible`.  The decoded
multihash code is not consulted anywhere on this path. -/
def findForwards (mh : DecodedMultihash) (encrypted : Bool) (k : BackendKind) : Bool :=
  if mh.Digest = [] then false else doFindEligible encrypted k

/-! ## The doFind gather/merge loop (find.go)

A gathered element is an `sgResponse`: either a captured transport error
(`&sgResponse{err: err}`, produced when `s.Client.Do` fails with an error
that is not a context cancellation) or a parsed response together with
the backend it came from (`&sgResponse{bknd: b, rsp: providers}`). -/

/-- An `sgResponse` value as constructed by the `doFind` worker. -/
inductive SgFind where
  | failure
  | success (bknd : BackendKind) (rsp : FindResponse)
deriving DecidableEq

/-- The accumulator of the `doFind` gather loop: the merged response
`resp`, the collected `gatherErrs` (only their number matters for the
status decision) and the `foundCaskade` / `foundRegular` flags. -/
structure DoFindState where
  resp : FindResponse
  gatherErrs : Nat
  foundCaskade : Bool
  foundRegular : Bool
deriving DecidableEq

/-- The state at the top of the gather loop: an empty response, no errors,
both found flags false. -/
def initDoFindState : DoFindState :=
  { resp := { MultihashResults := [], EncryptedMultihashResults := [] }
    gatherErrs := 0
    foundCaskade := false
    foundRegular := false }

/-- `updateFoundFlags` (find.go): `foundCaskade ||= isCaskade`,
`foundRegular ||= !isCaskade`. -/
def updateFoundFlags (k : BackendKind) (fc fr : Bool) : Bool × Bool :=
  (fc || isCaskadeBackend k, fr || !isCaskadeBackend k)

/-- The duplicate test of the merge loop:
`bytes.Equal(rr.ContextID, pr.ContextID) && bytes.Equal([]byte(rr.Provider.ID), []byte(pr.Provider.ID))`. -/
def sameProviderIdentity (rr pr : ProviderResult) : Bool :=
  rr.ContextID == pr.ContextID && rr.Provider.ID == pr.Provider.ID

/-- The inner merge loop over the incoming `ProviderResults` (find.go):
each incoming `pr` is compared against the current accumulated list; on
the first duplicate the loop does `continue outer`, abandoning the rest
of this response (the returned flag is `true`); otherwise the found flags
are updated and `pr` is appended.  Returns the new accumulated list, the
two found flags and whether `continue outer` was hit. -/
def mergeProviderResults (b : BackendKind) :
    List ProviderResult → List ProviderResult → Bool → Bool →
    List ProviderResult × Bool × Bool × Bool
  | cur, [], fc, fr => (cur, fc, fr, false)
  | cur, pr :: rest, fc, fr =>
    if cur.any (fun rr => sameProviderIdentity rr pr) then
      (cur, fc, fr, true)
    else
      let f := updateFoundFlags b fc fr
      mergeProviderResults b (cur ++ [pr]) rest f.1 f.2

/-- The plain-results half of one gather iteration (find.go): skipped when
the incoming response has no `MultihashResults`; adopts the whole incoming
list when nothing was merged yet; aborts with 500 when the first entries'
multihashes differ (`.error`); otherwise runs the dedup merge loop on the
first entry.  The second component reports whether `continue outer` was
hit (in which case the encrypted half of this iteration is skipped). -/
def doFindStepPlain (b : BackendKind) (st : DoFindState)
    (incoming : List MultihashResult) : Except Unit (DoFindState × Bool) :=
  match incoming with
  | [] => .ok (st, false)
  | new0 :: _ =>
    match st.resp.MultihashResults with
    | [] =>
      let f := updateFoundFlags b st.foundCaskade st.foundRegular
      .ok ({ st with
              resp := { st.resp with MultihashResults := incoming }
              foundCaskade := f.1
              foundRegular := f.2 }, false)
    | cur0 :: rest =>
      if cur0.Multihash = new0.Multihash then
        let m := mergeProviderResults b cur0.ProviderResults new0.ProviderResults
          st.foundCaskade st.foundRegular
        .ok ({ st with
                resp := { st.resp with
                  MultihashResults := { cur0 with ProviderResults := m.1 } :: rest }
                foundCaskade := m.2.1
                foundRegular := m.2.2.1 }, m.2.2.2)
      else
        .error ()

/-- The encrypted-results half of one gather iteration (find.go): skipped
when the incoming response has no `EncryptedMultihashResults`; adopts the
whole incoming list when nothing was merged yet; aborts with 500 when the
first entries' multihashes differ; otherwise concatenates the
`EncryptedValueKeys` of the first entry. -/
def doFindStepEnc (b : BackendKind) (st : DoFindState)
    (incoming : List EncryptedMultihashResult) : Except Unit DoFindState :=
  match incoming with
  | [] => .ok st
  | new0 :: _ =>
    match st.resp.EncryptedMultihashResults with
    | [] =>
      let f := updateFoundFlags b st.foundCaskade st.foundRegular
      .ok { st with
              resp := { st.resp with EncryptedMultihashResults := incoming }
              foundCaskade := f.1
              foundRegular := f.2 }
    | cur0 :: rest =>
      if cur0.Multihash = new0.Multihash then
        let f := updateFoundFlags b st.foundCaskade st.foundRegular
        .ok { st with
                resp := { st.resp with EncryptedMultihashResults :=
                  { cur0 with EncryptedValueKeys :=
                      cur0.EncryptedValueKeys ++ new0.EncryptedValueKeys } :: rest }
                foundCaskade := f.1
                foundRegular := f.2 }
      else
        .error ()

/-- One iteration of the `doFind` gather loop: a gathered error is
collected into `gatherErrs`; a gathered response is merged, plain results
first, then (unless `continue outer` was hit) encrypted results. -/
def doFindStep (st : DoFindState) (r : SgFind) : Except Unit DoFindState :=
  match r with
  | .failure => .ok { st with gatherErrs := st.gatherErrs + 1 }
  | .success b rsp => do
    let p ← doFindStepPlain b st rsp.MultihashResults
    if p.2 then
      .ok p.1
    else
      doFindStepEnc b p.1 rsp.EncryptedMultihashResults

/-- The whole gather loop of `doFind` over the gathered sequence `rs`;
`.error` is the 500 abort on conflicting multihashes. -/
def doFindMerge (rs : List SgFind) : Except Unit DoFindState :=
  rs.foldlM doFindStep initDoFindState

/-- The status decision at the end of `doFind` (find.go): 500 (with no
body) on a multihash conflict; with an empty merged response, 504 when
`gatherErrs` is non-empty and 404 otherwise; else 200 with the merged
response. -/
def doFindResult (rs : List SgFind) : Nat × Option FindResponse :=
  match doFindMerge rs with
  | .error _ => (500, none)
  | .ok st =>
    if st.resp.MultihashResults = [] ∧ st.resp.EncryptedMultihashResults = [] then
      if st.gatherErrs ≠ 0 then (504, none) else (404, none)
    else
      (200, some st.resp)

/-! ## The circuit breaker (mercari/go-circuitbreaker, configured in loadBackends)

The breaker itself is a vendored dependency; only the pieces the router
relies on are modelled: `Ready()` as a boolean, and the outcome
classification of `Done(ctx, err)`. -/

/-- The observable state of a backend's circuit breaker: whether `Ready()`
currently admits a call. -/
structure CircuitBreakerState where
  ready : Bool
deriving DecidableEq

/-- The error classes that reach `CircuitBreaker.Done` from a scatter
worker: a context cancellation, a context deadline, an error wrapped with
`circuitbreaker.MarkAsSuccess`, or any other (plain) error. -/
inductive CBErr where
  | canceled
  | deadline
  | marked
  | plain
deriving DecidableEq

/-- What `Done` records on the breaker's counters. -/
inductive CBRecord where
  | success
  | failure
  | notCounted
deriving DecidableEq

/-- Modelled from the mercari/go-circuitbreaker dependency:
`Done(ctx, err)` records a success for a nil error or an error marked
with `MarkAsSuccess`; it records nothing for a context cancellation
(resp. deadline) unless `FailOnContextCancel` (resp.
`FailOnContextDeadline`) is set; every other error is a failure. -/
def cbDone (failOnContextCancel failOnContextDeadline : Bool) :
    Option CBErr → CBRecord
  | none => .success
  | some .marked => .success
  | some .canceled => if failOnContextCancel then .failure else .notCounted
  | some .deadline => if failOnContextDeadline then .failure else .notCounted
  | some .plain => .failure

/-- `loadBackends` builds every breaker with
`circuitbreaker.WithFailOnContextCancel(false)` (and leaves
`FailOnContextDeadline` at its false default). -/
def loadBackendsFailOnContextCancel : Bool := false

/-- See `loadBackendsFailOnContextCancel`. -/
def loadBackendsFailOnContextDeadline : Bool := false

/-! ## The doFind worker (find.go)

What one worker invocation produces, as a function of how its HTTP
attempt went: the value it hands to the output channel (if any) and the
error it returns to `scatter`, which `scatter` passes to the backend's
`CircuitBreaker.Done`. -/

/-- How the worker's HTTP call can go: `s.Client.Do` fails (with a
cancellation, deadline or other transport error), reading the body fails,
or a response with a status code arrives (for a 200 body, whether
`model.UnmarshalFindResponse` succeeds). -/
inductive NetErr where
  | canceled
  | deadline
  | other
deriving DecidableEq

/-- The classification `Done` sees for a read error: cancellations and
deadlines keep their identity, anything else is a plain error. -/
def NetErr.toCBErr : NetErr → CBErr
  | .canceled => .canceled
  | .deadline => .deadline
  | .other => .plain

/-- One HTTP attempt by the `doFind` worker. -/
inductive HttpAttempt where
  | doErr (e : NetErr)
  | readErr (e : NetErr)
  | response (status : Nat) (bodyParses : Bool)
deriving DecidableEq

/-- What the worker emits to the gather channel. -/
inductive WorkerEmit where
  | emitResponse
  | emitFailure
  | nothing
deriving DecidableEq

/-- The `doFind` worker's outcome (find.go): on a `Client.Do` error it
returns the error when it is a cancellation or deadline, and otherwise
captures it as `&sgResponse{err: err}` with a nil error; a read error is
returned as is; a 200 response is emitted when it parses and otherwise
yields `MarkAsSuccess(err)`; a 404 yields nothing; any other status yields
an error that is wrapped in `MarkAsSuccess` exactly when the status is
below 500. -/
def doFindWorker : HttpAttempt → WorkerEmit × Option CBErr
  | .doErr .canceled => (.nothing, some .canceled)
  | .doErr .deadline => (.nothing, some .deadline)
  | .doErr .other => (.emitFailure, none)
  | .readErr e => (.nothing, some e.toCBErr)
  | .response status bodyParses =>
    if status = 200 then
      if bodyParses then (.emitResponse, none) else (.nothing, some .marked)
    else if status = 404 then
      (.nothing, none)
    else
      (.nothing, some (if status < 500 then .marked else .plain))

/-! ## Scatter/gather (scatter_gather.go)

The breaker-gated fan-out: a backend whose breaker is present and not
ready is skipped before any worker is spawned; each invoked worker's
result is emitted only when the worker returned no error and a non-nil
value.  The channels deliver results in an arbitrary order, so the model
fixes one order; theorems about it hold for every order. -/

/-- A backend as `scatter` sees it: its kind, and its circuit breaker
(`CB()` may in principle be nil, which `scatter` checks for). -/
structure BackendM where
  id : Nat
  kind : BackendKind
  cb : Option CircuitBreakerState
deriving DecidableEq

/-- The `backend.CB() != nil && !backend.CB().Ready()` gate of `scatter`:
the targets that are not skipped, i.e. for which a worker is spawned. -/
def scatterInvoked (backends : List BackendM) : List BackendM :=
  backends.filter fun b =>
    match b.cb with
    | some cb => cb.ready
    | none => true

/-- The multiset of values emitted to the output channel: one worker per
invoked target; a worker's value is emitted exactly when the worker
returned no error (after `Done` unwrapped it) and a non-nil result. -/
def scatterOutputs {R : Type} (backends : List BackendM)
    (forEach : BackendM → Option R × Option CBErr) : List R :=
  (scatterInvoked backends).filterMap fun b =>
    match (forEach b).2 with
    | some _ => none
    | none => (forEach b).1

/-! ## Matchers (backend.go) and cascade labels (loadBackends) -/

/-- Go's `strings.Split(s, ",")`, modelled on the character list: the
(possibly empty) substrings between commas.  Splitting a non-empty string
always yields at least one part. -/
def splitCommaChars (acc : List Char) : List Char → List String
  | [] => [String.mk acc.reverse]
  | c :: rest =>
    if c = ',' then String.mk acc.reverse :: splitCommaChars [] rest
    else splitCommaChars (c :: acc) rest

/-- `strings.Split(s, ",")`. -/
def stringsSplitComma (s : String) : List String :=
  splitCommaChars [] s.toList

/-- A request's query parameters, as the multimap `r.URL.Query()` flattened
to (key, value) pairs in order. -/
abbrev Query := List (String × String)

/-- `Matchers.QueryParam(key, value)` (backend.go): look up the values of
`key` in the query; match when any of them equals `value` (no values
means no match). -/
def queryParamMatcher (key value : String) (q : Query) : Bool :=
  ((q.filter fun kv => kv.1 = key).map fun kv => kv.2).any fun got => value = got

/-- The matcher `loadBackends` builds for a cascade backend:
`Matchers.Any` when `CascadeLabels` is empty; otherwise the labels are
split on commas and the matcher is
`Matchers.AnyOf(Matchers.QueryParam("cascade", label)...)`. -/
def cascadeMatcher (cascadeLabels : String) (q : Query) : Bool :=
  if cascadeLabels = "" then true
  else
    let labels := stringsSplitComma cascadeLabels
    if labels.length > 0 then
      labels.any fun label => queryParamMatcher "cascade" label q
    else true

/-! ## CRC-32 and the NDJSON streaming aggregator (find_ndjson.go) -/

/-- One shift-and-conditionally-xor round of the reflected CRC-32
computation with the IEEE polynomial 0xEDB88320 (modelled from Go's
`hash/crc32`). -/
def crc32Round (c : Nat) : Nat :=
  if c &&& 1 = 1 then (c >>> 1) ^^^ 0xEDB88320 else c >>> 1

/-- Feed one byte into the CRC state: xor it into the low bits, then run
eight rounds. -/
def crc32UpdateByte (c b : Nat) : Nat :=
  crc32Round^[8] (c ^^^ (b &&& 0xFF))

/-- `crc32.ChecksumIEEE` (Go `hash/crc32`): the reflected CRC-32 of the
byte string with pre- and post-inversion. -/
def crc32ChecksumIEEE (data : Bytes) : Nat :=
  (data.foldl crc32UpdateByte 0xFFFFFFFF) ^^^ 0xFFFFFFFF

/-- An `encryptedOrPlainResult` (find_ndjson.go): an embedded
`model.ProviderResult` plus an optional `EncryptedValueKey`. -/
structure EncryptedOrPlainResult where
  Result : ProviderResult
  EncryptedValueKey : Bytes
deriving DecidableEq

/-- The key `putIfAbsent` hashes: the encrypted value key when one is
present, otherwise provider ID concatenated with context ID. -/
def resultCrcKey (p : EncryptedOrPlainResult) : Nat :=
  if p.EncryptedValueKey.length > 0 then
    crc32ChecksumIEEE p.EncryptedValueKey
  else
    crc32ChecksumIEEE (p.Result.Provider.ID ++ p.Result.ContextID)

/-- `resultSet.putIfAbsent` (find_ndjson.go): compute the CRC-32 key; if it
was seen return `false`, else record it and return `true`.  The seen set
is the list of recorded keys. -/
def putIfAbsent (r : List Nat) (p : EncryptedOrPlainResult) : Bool × List Nat :=
  let key := resultCrcKey p
  if key ∈ r then (false, r) else (true, key :: r)

/-- The consumer loop of `doFindNDJson` (find_ndjson.go) over the results
arriving on `resultsChan`, given the already-seen key set: a result is
written to the client exactly when `putIfAbsent` reports it absent.
Returns the sequence of written records. -/
def ndjsonStreamAux (seen : List Nat) : List EncryptedOrPlainResult → List EncryptedOrPlainResult
  | [] => []
  | p :: rest =>
    let a := putIfAbsent seen p
    if a.1 then p :: ndjsonStreamAux a.2 rest else ndjsonStreamAux a.2 rest

/-- The whole consumer loop, starting from `newResultSet()` (empty). -/
def ndjsonStream (results : List EncryptedOrPlainResult) : List EncryptedOrPlainResult :=
  ndjsonStreamAux [] results

/-- Follows the spec's words, for comparison with `ndjsonStream`: stream
each newly-seen record — keep a record and drop every later record whose
CRC-32 key repeats it. -/
def specFirstPerKey : List EncryptedOrPlainResult → List EncryptedOrPlainResult
  | [] => []
  | p :: rest =>
    p :: specFirstPerKey (rest.filter fun q => ¬resultCrcKey q = resultCrcKey p)
termination_by l => l.length
decreasing_by
  simp only [List.length_cons]
  exact Nat.lt_succ_of_le (List.length_filter_le _ _)

/-! ## RFC 3339 timestamps and the providers merge (providers.go)

`time.Parse(time.RFC3339, s)` is modelled by an explicit parser for the
RFC 3339 layout `YYYY-MM-DDTHH:MM:SS[.fraction](Z|±HH:MM)` producing the
instant as nanoseconds (an `Int`, adjusted by the zone offset), so that
Go's `t1.Before(t2)` is `<`.  Strings the layout rejects parse to
`none`. -/

/-- A decimal digit. -/
def readDigit (c : Char) : Option Nat :=
  if c.isDigit then some (c.toNat - 48) else none

/-- Read exactly `n` leading digits as a number, returning the rest. -/
def readNDigits : Nat → Nat → List Char → Option (Nat × List Char)
  | 0, acc, cs => some (acc, cs)
  | n + 1, acc, c :: cs =>
    match readDigit c with
    | some d => readNDigits n (acc * 10 + d) cs
    | none => none
  | _ + 1, _, [] => none

/-- Expect one literal character. -/
def expectChar (c : Char) : List Char → Option (List Char)
  | x :: cs => if x = c then some cs else none
  | [] => none

/-- Take the maximal run of leading digits. -/
def takeDigits : List Char → List Nat × List Char
  | [] => ([], [])
  | c :: cs =>
    match readDigit c with
    | some d =>
      let r := takeDigits cs
      (d :: r.1, r.2)
    | none => ([], c :: cs)

/-- A fractional-seconds part `.d…` as nanoseconds (digits beyond the
ninth are truncated, shorter runs are scaled up). -/
def fracToNanos (ds : List Nat) : Nat :=
  (ds.take 9).foldl (fun a d => a * 10 + d) 0 * 10 ^ (9 - min ds.length 9)

/-- The zone suffix: `Z`, or `±HH:MM` as an offset in seconds. -/
def readZone : List Char → Option Int
  | ['Z'] => some 0
  | '+' :: rest =>
    match readNDigits 2 0 rest with
    | some (zh, cs) =>
      match expectChar ':' cs with
      | some cs =>
        match readNDigits 2 0 cs with
        | some (zm, []) =>
          if zh ≤ 23 ∧ zm ≤ 59 then some ((zh : Int) * 3600 + zm * 60) else none
        | _ => none
      | none => none
    | none => none
  | '-' :: rest =>
    match readNDigits 2 0 rest with
    | some (zh, cs) =>
      match expectChar ':' cs with
      | some cs =>
        match readNDigits 2 0 cs with
        | some (zm, []) =>
          if zh ≤ 23 ∧ zm ≤ 59 then some (-((zh : Int) * 3600 + zm * 60)) else none
        | _ => none
      | none => none
    | none => none
  | _ => none

/-- Gregorian leap year. -/
def isLeapYear (y : Nat) : Bool :=
  y % 4 = 0 && (y % 100 ≠ 0 || y % 400 = 0)

/-- Days in a month. -/
def daysInMonth (y m : Nat) : Nat :=
  if m = 2 then (if isLeapYear y then 29 else 28)
  else if m = 4 ∨ m = 6 ∨ m = 9 ∨ m = 11 then 30
  else 31

/-- Leap years among `0, …, y-1`. -/
def leapCount (y : Nat) : Nat :=
  if y = 0 then 0 else (y - 1) / 4 - (y - 1) / 100 + (y - 1) / 400 + 1

/-- Days in the full months of year `y` that precede month `m`. -/
def daysBeforeMonth (y m : Nat) : Nat :=
  (List.range m).foldl (fun a k => if k = 0 then a else a + daysInMonth y k) 0

/-- Days from 0000-01-01 to the given date. -/
def daysSinceYearZero (y m d : Nat) : Nat :=
  365 * y + leapCount y + daysBeforeMonth y m + (d - 1)

/-- `time.Parse(time.RFC3339, s)`, as the parsed instant in nanoseconds
since 0000-01-01T00:00:00Z; `none` when the layout rejects `s`. -/
def rfc3339Parse (s : String) : Option Int := do
  let cs := s.toList
  let (y, cs) ← readNDigits 4 0 cs
  let cs ← expectChar '-' cs
  let (mo, cs) ← readNDigits 2 0 cs
  let cs ← expectChar '-' cs
  let (d, cs) ← readNDigits 2 0 cs
  let cs ← expectChar 'T' cs
  let (h, cs) ← readNDigits 2 0 cs
  let cs ← expectChar ':' cs
  let (mi, cs) ← readNDigits 2 0 cs
  let cs ← expectChar ':' cs
  let (sec, cs) ← readNDigits 2 0 cs
  let (nanos, cs) ←
    match cs with
    | '.' :: cs =>
      let r := takeDigits cs
      if r.1 = [] then none else some (fracToNanos r.1, r.2)
    | _ => some (0, cs)
  let off ← readZone cs
  if 1 ≤ mo ∧ mo ≤ 12 ∧ 1 ≤ d ∧ d ≤ daysInMonth y mo ∧ h ≤ 23 ∧ mi ≤ 59 ∧ sec ≤ 59 then
    some (((daysSinceYearZero y mo d * 86400 + h * 3600 + mi * 60 + sec : Nat) : Int)
      * 1000000000 + (nanos : Int) - off * 1000000000)
  else
    none

/-- The guarded comparison of the providers merge (providers.go):
`e1 == nil && e2 == nil && clt.Before(plt)` — a strict `<` that is false
whenever either timestamp fails to parse. -/
def timeBefore (a b : String) : Bool :=
  match rfc3339Parse a, rfc3339Parse b with
  | some ta, some tb => ta < tb
  | _, _ => false

/-- `model.ProviderInfo` (the fields the merge touches): the provider's
`AddrInfo` and its `LastAdvertisementTime` string. -/
structure PAddrInfo where
  ID : String
  Addrs : List String
deriving DecidableEq

/-- See `PAddrInfo`. -/
structure ProviderInfo where
  AddrInfo : PAddrInfo
  LastAdvertisementTime : String
deriving DecidableEq

/-- Replace the value stored at `k` (the map assignment
`resp[p.AddrInfo.ID] = p` on an existing key). -/
def mapUpdate (m : List (String × ProviderInfo)) (k : String) (v : ProviderInfo) :
    List (String × ProviderInfo) :=
  m.map fun kv => if kv.1 = k then (k, v) else kv

/-- One iteration of the `/providers` merge loop (providers.go): a record
for an already-seen peer replaces the kept one only when both timestamps
parse and the kept one's is strictly earlier; a record for a new peer is
inserted. -/
def providersMergeStep (m : List (String × ProviderInfo)) (p : ProviderInfo) :
    List (String × ProviderInfo) :=
  match m.lookup p.AddrInfo.ID with
  | some curr =>
    if timeBefore curr.LastAdvertisementTime p.LastAdvertisementTime then
      mapUpdate m p.AddrInfo.ID p
    else m
  | none => m ++ [(p.AddrInfo.ID, p)]

/-- The `/providers` merge over all records received from backends, as the
final `resp` map (an association list keyed by peer ID). -/
def providersMerge (recs : List ProviderInfo) : List (String × ProviderInfo) :=
  recs.foldl providersMergeStep []

/-- The record the `/providers` merge keeps for peer `pid`. -/
def keptFor (recs : List ProviderInfo) (pid : String) : Option ProviderInfo :=
  (providersMerge recs).lookup pid

/-- The zero `model.ProviderInfo{}` the single-provider merge starts
from. -/
def emptyProviderInfo : ProviderInfo :=
  { AddrInfo := { ID := "", Addrs := [] }, LastAdvertisementTime := "" }

/-- One iteration of the `/providers/{pid}` merge loop: when the kept
record has a non-empty timestamp the same guarded comparison applies,
otherwise the incoming record is adopted unconditionally. -/
def providerMergeStep (resp p : ProviderInfo) : ProviderInfo :=
  if resp.LastAdvertisementTime ≠ "" then
    if timeBefore resp.LastAdvertisementTime p.LastAdvertisementTime then p else resp
  else p

/-- The `/providers/{pid}` merge over the records received. -/
def providerMerge (recs : List ProviderInfo) : ProviderInfo :=
  recs.foldl providerMergeStep emptyProviderInfo

/-! ## The /providers list response (providers.go) -/

/-- A JSON string literal (Go `encoding/json` string encoding, without
escape sequences, which no field the model carries needs). -/
def jsonString (s : String) : String := "\"" ++ s ++ "\""

/-- A JSON array of pre-rendered elements. -/
def jsonArray (elems : List String) : String :=
  "[" ++ String.intercalate "," elems ++ "]"

/-- `json.Marshal` of one `ProviderInfo` (the modelled fields). -/
def marshalProviderInfo (p : ProviderInfo) : String :=
  "\x7b\"AddrInfo\":\x7b\"ID\":" ++ jsonString p.AddrInfo.ID ++ ",\"Addrs\":"
    ++ jsonArray (p.AddrInfo.Addrs.map jsonString) ++ "\x7d,\"LastAdvertisementTime\":"
    ++ jsonString p.LastAdvertisementTime ++ "\x7d"

/-- The `/providers` GET handler after the gather loop (providers.go):
flatten the merged map to a slice, marshal it and write it with status
200.  `out := make(..., 0, len(resp))` is non-nil, so an empty merge
marshals to `[]`. -/
def providersHandlerGET (recs : List ProviderInfo) : Nat × String :=
  let out := (providersMerge recs).map fun kv => kv.2
  (200, jsonArray (out.map marshalProviderInfo))

/-- The timestamp order the merge respects: every parse of `r`'s
timestamp is at most every parse of `k`'s. -/
def tLE (r k : ProviderInfo) : Prop :=
  ∀ tr tk : Int, rfc3339Parse r.LastAdvertisementTime = some tr →
    rfc3339Parse k.LastAdvertisementTime = some tk → tr ≤ tk

/-- The multihash of the first entry of a plain result list (the value
`resp.MultihashResults[0].Multihash` the conflict check compares). -/
def headMh (l : List MultihashResult) : Option Bytes :=
  l.head?.map fun mr => mr.Multihash

/-- The multihash of the first entry of an encrypted result list. -/
def headEncMh (l : List EncryptedMultihashResult) : Option Bytes :=
  l.head?.map fun mr => mr.Multihash

/-- The deduplication identity of a provider result: its
`(ContextID, Provider.ID)` pair. -/
def prPair (pr : ProviderResult) : Bytes × Bytes :=
  (pr.ContextID, pr.Provider.ID)

/-! ## Theorems -/

/-- C4 (counterexample): the claim keys find routing on the multihash
code, but the code keys it on the route's `encrypted` flag.  A lookup of
a `DBL_SHA2_256` multihash arriving on the plain `/multihash/` route
(route flag `false`) is forwarded to a plain (non-dh) backend, so a find
on a `DBL_SHA2_256` multihash is not sent only to dh backends. -/
theorem find_dbl_sha2_routing_counterexample :
    routeEncrypted "/multihash/" = some false
    ∧ findForwards { Code := DBL_SHA2_256, Digest := [1] } false BackendKind.plain = true
    ∧ isDhBackend BackendKind.plain = false
    ∧ findForwards { Code := DBL_SHA2_256, Digest := [1] } false BackendKind.dh = false := by
  exact ⟨rfl, rfl, rfl, rfl⟩

/-- C4 (amended): a find is forwarded to a backend exactly when the
route's `encrypted` flag equals the backend's dh-ness and the backend is
not providers-only (and the multihash has a non-empty digest); the
multihash code plays no role.  In particular a find on an encrypted
route goes only to dh backends, a find on a plain route never goes to a
dh backend, and providers-only backends are never consulted. -/
theorem find_forwarding_by_route_flag (mh : DecodedMultihash) (encrypted : Bool)
    (k : BackendKind) :
    findForwards mh encrypted k = true ↔
      mh.Digest ≠ [] ∧ isDhBackend k = encrypted ∧ isProvidersBackend k = false := by
  unfold findForwards doFindEligible
  by_cases h : mh.Digest = [] <;>
    cases k <;> cases encrypted <;>
      simp [h, isDhBackend, isProvidersBackend]

/-- C7: outcomes recorded through a backend's circuit breaker, with the
configuration `loadBackends` uses (`FailOnContextCancel(false)`): a
context-cancellation error is never recorded as a failure, and a backend
response with status below 500 — including any 4xx and a 200 whose body
does not parse — is recorded as a success while emitting no response. -/
theorem breaker_outcome_recording (a : HttpAttempt) (status : Nat) (bodyParses : Bool) :
    ((doFindWorker a).2 = some CBErr.canceled →
      cbDone loadBackendsFailOnContextCancel loadBackendsFailOnContextDeadline
        (doFindWorker a).2 ≠ CBRecord.failure)
    ∧ (status < 500 →
      cbDone loadBackendsFailOnContextCancel loadBackendsFailOnContextDeadline
        (doFindWorker (.response status bodyParses)).2 = CBRecord.success)
    ∧ (status < 500 → status ≠ 200 ∨ bodyParses = false →
      (doFindWorker (.response status bodyParses)).1 = WorkerEmit.nothing) := by
  refine ⟨fun h => ?_, fun h5 => ?_, fun h5 hnp => ?_⟩
  · rw [h]
    decide
  · by_cases h2 : status = 200
    · subst h2
      cases bodyParses <;> decide
    · by_cases h4 : status = 404
      · subst h4
        cases bodyParses <;> decide
      · simp only [doFindWorker, if_neg h2, if_neg h4, if_pos h5]
        decide
  · by_cases h2 : status = 200
    · subst h2
      rcases hnp with hnp | hnp
      · exact absurd rfl hnp
      · subst hnp
        decide
    · by_cases h4 : status = 404
      · subst h4
        cases bodyParses <;> decide
      · simp only [doFindWorker, if_neg h2, if_neg h4, if_pos h5]

/-- Splitting any character list yields at least one part. -/
theorem splitCommaChars_ne_nil (l : List Char) (acc : List Char) :
    splitCommaChars acc l ≠ [] := by
  induction l generalizing acc with
  | nil => simp [splitCommaChars]
  | cons c cs ih =>
    unfold splitCommaChars
    split
    · simp
    · exact ih (c :: acc)

/-- C8: with a non-empty `CascadeLabels` configuration, the matcher that
`loadBackends` attaches to every cascade backend accepts a request
exactly when its query carries a `cascade` parameter whose value is one
of the comma-separated labels; a request with no `cascade` parameter is
rejected, so such a request skips every cascade backend. -/
theorem cascade_matcher_labels (cfg : String) (q : Query) (hcfg : cfg ≠ "") :
    (cascadeMatcher cfg q = true ↔
      ∃ kv ∈ q, kv.1 = "cascade" ∧ kv.2 ∈ stringsSplitComma cfg)
    ∧ ((∀ kv ∈ q, kv.1 ≠ "cascade") → cascadeMatcher cfg q = false) := by
  have hne : stringsSplitComma cfg ≠ [] := splitCommaChars_ne_nil _ _
  have hexp : cascadeMatcher cfg q =
      (stringsSplitComma cfg).any fun label => queryParamMatcher "cascade" label q := by
    unfold cascadeMatcher
    rw [if_neg hcfg, if_pos (by simpa [List.length_pos] using hne)]
  have hiff : cascadeMatcher cfg q = true ↔
      ∃ kv ∈ q, kv.1 = "cascade" ∧ kv.2 ∈ stringsSplitComma cfg := by
    rw [hexp]
    simp only [List.any_eq_true, queryParamMatcher, List.mem_map, List.mem_filter,
      decide_eq_true_eq]
    constructor
    · rintro ⟨label, hlabel, v, ⟨kv, ⟨hkvq, hkey⟩, hv⟩, heq⟩
      exact ⟨kv, hkvq, hkey, by rw [hv, ← heq]; exact hlabel⟩
    · rintro ⟨kv, hkvq, hkey, hval⟩
      exact ⟨kv.2, hval, kv.2, ⟨kv, ⟨hkvq, hkey⟩, rfl⟩, rfl⟩
  refine ⟨hiff, fun hnone => ?_⟩
  cases hcm : cascadeMatcher cfg q with
  | false => rfl
  | true =>
    exfalso
    rcases hiff.mp hcm with ⟨kv, hkvq, hkey, _⟩
    exact hnone kv hkvq hkey

/-- C8 witness: `CascadeLabels="X,Y"` and a request with `cascade=Y`
matches; one with no `cascade` parameter does not. -/
theorem cascade_matcher_labels_witness :
    (cascadeMatcher "X,Y" [("cascade", "Y")] = true ↔
      ∃ kv ∈ [("cascade", "Y")], kv.1 = "cascade" ∧ kv.2 ∈ stringsSplitComma "X,Y")
    ∧ ((∀ kv ∈ [("cascade", "Y")], kv.1 ≠ "cascade") →
      cascadeMatcher "X,Y" [("cascade", "Y")] = false) :=
  cascade_matcher_labels "X,Y" [("cascade", "Y")] (by decide)

/-- C10: the `/providers` GET handler always answers 200 — never 404 —
and when no backend contributed any provider record the body is the
empty JSON array. -/
theorem providers_get_never_404 (recs : List ProviderInfo) :
    (providersHandlerGET recs).1 = 200
    ∧ (recs = [] → providersHandlerGET recs = (200, "[]")) := by
  constructor
  · rfl
  · rintro rfl
    rfl

/-- C5: a backend whose circuit breaker reports not-ready is skipped by
`scatter` before any worker is spawned — it is not among the invoked
targets — and every element of the gathered output comes from an invoked
target whose worker returned a value and no error. -/
theorem scatter_breaker_gating {R : Type} (backends : List BackendM)
    (forEach : BackendM → Option R × Option CBErr) (b : BackendM)
    (cb : CircuitBreakerState) (_hb : b ∈ backends) (hcb : b.cb = some cb)
    (hnr : cb.ready = false) :
    b ∉ scatterInvoked backends
    ∧ ∀ r ∈ scatterOutputs backends forEach,
        ∃ b' ∈ scatterInvoked backends, (forEach b').2 = none ∧ (forEach b').1 = some r := by
  constructor
  · intro hmem
    have hp := List.of_mem_filter hmem
    rw [hcb] at hp
    have hp' : cb.ready = true := hp
    rw [hnr] at hp'
    cases hp'
  · intro r hr
    rcases List.mem_filterMap.mp hr with ⟨a, ha, hfa⟩
    refine ⟨a, ha, ?_⟩
    cases h2 : (forEach a).2 with
    | some e =>
      rw [h2] at hfa
      cases hfa
    | none =>
      rw [h2] at hfa
      exact ⟨rfl, hfa⟩

/-- C5 witness: a single backend with an open (not-ready) breaker is not
invoked and the gathered output admits the (vacuous) origin property. -/
theorem scatter_breaker_gating_witness :
    (⟨0, .plain, some ⟨false⟩⟩ : BackendM) ∉
      scatterInvoked [⟨0, .plain, some ⟨false⟩⟩]
    ∧ ∀ r ∈ scatterOutputs [(⟨0, .plain, some ⟨false⟩⟩ : BackendM)]
        (fun _ => ((none : Option Nat), (none : Option CBErr))),
        ∃ b' ∈ scatterInvoked [(⟨0, .plain, some ⟨false⟩⟩ : BackendM)],
          ((fun (_ : BackendM) => ((none : Option Nat), (none : Option CBErr))) b').2 = none
          ∧ ((fun (_ : BackendM) => ((none : Option Nat), (none : Option CBErr))) b').1 = some r :=
  scatter_breaker_gating [⟨0, .plain, some ⟨false⟩⟩]
    (fun _ => ((none : Option Nat), (none : Option CBErr)))
    ⟨0, .plain, some ⟨false⟩⟩ ⟨false⟩ (List.mem_singleton.mpr rfl) rfl rfl

/-- Threading the seen set through the consumer loop equals filtering the
already-seen keys up front and keeping the first record per key. -/
theorem ndjsonStreamAux_eq_spec (l : List EncryptedOrPlainResult) (seen : List Nat) :
    ndjsonStreamAux seen l =
      specFirstPerKey (l.filter fun q => resultCrcKey q ∉ seen) := by
  induction l generalizing seen with
  | nil => simp [ndjsonStreamAux, specFirstPerKey]
  | cons p rest ih =>
    by_cases hp : resultCrcKey p ∈ seen
    · have hstep : ndjsonStreamAux seen (p :: rest) = ndjsonStreamAux seen rest := by
        simp [ndjsonStreamAux, putIfAbsent, hp]
      rw [hstep, ih]
      congr 1
      simp [List.filter_cons, hp]
    · have hstep : ndjsonStreamAux seen (p :: rest) =
          p :: ndjsonStreamAux (resultCrcKey p :: seen) rest := by
        simp [ndjsonStreamAux, putIfAbsent, hp]
      have hfl : (p :: rest).filter (fun q => resultCrcKey q ∉ seen) =
          p :: rest.filter (fun q => resultCrcKey q ∉ seen) := by
        simp [List.filter_cons, hp]
      rw [hstep, ih, hfl, specFirstPerKey, List.filter_filter]
      refine congrArg _ (congrArg specFirstPerKey (List.filter_congr ?_))
      intro a _
      by_cases h1 : resultCrcKey a ∈ seen <;> by_cases h2 : resultCrcKey a = resultCrcKey p <;>
        simp [h1, h2]

/-- The streamed records are a subsequence of the arriving records. -/
theorem ndjsonStreamAux_sublist (l : List EncryptedOrPlainResult) (seen : List Nat) :
    List.Sublist (ndjsonStreamAux seen l) l := by
  induction l generalizing seen with
  | nil => simp [ndjsonStreamAux]
  | cons p rest ih =>
    by_cases hp : resultCrcKey p ∈ seen
    · have hstep : ndjsonStreamAux seen (p :: rest) = ndjsonStreamAux seen rest := by
        simp [ndjsonStreamAux, putIfAbsent, hp]
      rw [hstep]
      exact (ih seen).cons p
    · have hstep : ndjsonStreamAux seen (p :: rest) =
          p :: ndjsonStreamAux (resultCrcKey p :: seen) rest := by
        simp [ndjsonStreamAux, putIfAbsent, hp]
      rw [hstep]
      exact (ih _).cons₂ p

/-- The streamed records carry pairwise-distinct CRC keys, none of them
already in the seen set. -/
theorem ndjsonStreamAux_keys (l : List EncryptedOrPlainResult) (seen : List Nat) :
    ((ndjsonStreamAux seen l).map resultCrcKey).Nodup
    ∧ ∀ q ∈ ndjsonStreamAux seen l, resultCrcKey q ∉ seen := by
  induction l generalizing seen with
  | nil => simp [ndjsonStreamAux]
  | cons p rest ih =>
    by_cases hp : resultCrcKey p ∈ seen
    · have hstep : ndjsonStreamAux seen (p :: rest) = ndjsonStreamAux seen rest := by
        simp [ndjsonStreamAux, putIfAbsent, hp]
      rw [hstep]
      exact ih seen
    · have hstep : ndjsonStreamAux seen (p :: rest) =
          p :: ndjsonStreamAux (resultCrcKey p :: seen) rest := by
        simp [ndjsonStreamAux, putIfAbsent, hp]
      rw [hstep]
      have h2 := ih (resultCrcKey p :: seen)
      constructor
      · rw [List.map_cons, List.nodup_cons]
        refine ⟨?_, h2.1⟩
        intro hmem
        rcases List.mem_map.mp hmem with ⟨q, hq, hkq⟩
        exact h2.2 q hq (by rw [hkq]; exact List.mem_cons_self _ _)
      · intro q hq
        rcases List.mem_cons.mp hq with rfl | hq'
        · exact hp
        · intro hqs
          exact h2.2 q hq' (List.mem_cons_of_mem _ hqs)

/-- Every arriving record's key is either already seen or appears among
the streamed records. -/
theorem ndjsonStreamAux_covers (l : List EncryptedOrPlainResult) (seen : List Nat) :
    ∀ p ∈ l, resultCrcKey p ∈ seen
      ∨ ∃ q ∈ ndjsonStreamAux seen l, resultCrcKey q = resultCrcKey p := by
  induction l generalizing seen with
  | nil => simp
  | cons p' rest ih =>
    intro p hp
    by_cases hs : resultCrcKey p' ∈ seen
    · have hstep : ndjsonStreamAux seen (p' :: rest) = ndjsonStreamAux seen rest := by
        simp [ndjsonStreamAux, putIfAbsent, hs]
      rw [hstep]
      rcases List.mem_cons.mp hp with heq | hp2
      · exact Or.inl (heq ▸ hs)
      · exact ih seen p hp2
    · have hstep : ndjsonStreamAux seen (p' :: rest) =
          p' :: ndjsonStreamAux (resultCrcKey p' :: seen) rest := by
        simp [ndjsonStreamAux, putIfAbsent, hs]
      rw [hstep]
      rcases List.mem_cons.mp hp with heq | hp2
      · exact Or.inr ⟨p', List.mem_cons_self _ _, (heq ▸ rfl : resultCrcKey p' = resultCrcKey p)⟩
      · rcases ih (resultCrcKey p' :: seen) p hp2 with h | ⟨q, hq, hkq⟩
        · rcases List.mem_cons.mp h with h | h
          · exact Or.inr ⟨p', List.mem_cons_self _ _, h.symm⟩
          · exact Or.inl h
        · exact Or.inr ⟨q, List.mem_cons_of_mem _ hq, hkq⟩

/-- In a list whose images under `f` are pairwise distinct, at most one
element maps to any given key. -/
theorem length_filter_key_le_one {α : Type} (f : α → Nat) (l : List α)
    (h : (l.map f).Nodup) (k : Nat) :
    (l.filter fun a => f a = k).length ≤ 1 := by
  induction l with
  | nil => simp
  | cons a t ih =>
    rw [List.map_cons, List.nodup_cons] at h
    by_cases hk : f a = k
    · have ht : t.filter (fun a => decide (f a = k)) = [] := by
        rw [List.filter_eq_nil_iff]
        intro b hb
        simp only [decide_eq_true_eq]
        intro hfb
        exact h.1 (by rw [hk, ← hfb]; exact List.mem_map_of_mem f hb)
      simp [List.filter_cons, hk, ht]
    · rw [List.filter_cons]
      simp only [hk, decide_False, if_false]
      exact ih h.2

/-- C6: the NDJSON aggregator streams a record exactly when its CRC-32
key — of the encrypted value key when present, else of
providerID‖contextID — was not seen earlier in the request: the output
keeps the first record per key, at most one record per key is streamed,
every arriving record's key is represented in the stream, and the stream
is a subsequence of the arriving records. -/
theorem ndjson_stream_dedup (results : List EncryptedOrPlainResult) :
    ndjsonStream results = specFirstPerKey results
    ∧ (∀ k, ((ndjsonStream results).filter fun p => resultCrcKey p = k).length ≤ 1)
    ∧ (∀ p ∈ results, ∃ q ∈ ndjsonStream results, resultCrcKey q = resultCrcKey p)
    ∧ List.Sublist (ndjsonStream results) results := by
  refine ⟨?_, ?_, ?_, ndjsonStreamAux_sublist results []⟩
  · rw [ndjsonStream, ndjsonStreamAux_eq_spec]
    congr 1
    simp
  · intro k
    exact length_filter_key_le_one resultCrcKey _ (ndjsonStreamAux_keys results []).1 k
  · intro p hp
    rcases ndjsonStreamAux_covers results [] p hp with h | h
    · simp at h
    · exact h

/-! ### Association-list lookups for the providers merge -/

/-- A successful lookup is a member. -/
theorem lookup_mem {m : List (String × ProviderInfo)} {k : String} {v : ProviderInfo}
    (h : m.lookup k = some v) : (k, v) ∈ m := by
  induction m with
  | nil => cases h
  | cons kv t ih =>
    obtain ⟨k1, v1⟩ := kv
    by_cases hek : k = k1
    · subst hek
      simp only [List.lookup, beq_self_eq_true] at h
      cases h
      exact List.mem_cons_self _ _
    · have hb : (k == k1) = false := beq_eq_false_iff_ne.mpr hek
      simp only [List.lookup, hb] at h
      exact List.mem_cons_of_mem _ (ih h)

/-- Lookup ignores an appended tail when it already succeeds. -/
theorem lookup_append_some {m l : List (String × ProviderInfo)} {k : String}
    {v : ProviderInfo} (h : m.lookup k = some v) : (m ++ l).lookup k = some v := by
  induction m with
  | nil => cases h
  | cons kv t ih =>
    obtain ⟨k1, v1⟩ := kv
    cases hb : (k == k1) with
    | true =>
      simp only [List.lookup, hb] at h ⊢
      exact h
    | false =>
      simp only [List.lookup, hb] at h ⊢
      exact ih h

/-- Lookup falls through to the appended tail when it fails. -/
theorem lookup_append_none {m l : List (String × ProviderInfo)} {k : String}
    (h : m.lookup k = none) : (m ++ l).lookup k = l.lookup k := by
  induction m with
  | nil => rfl
  | cons kv t ih =>
    obtain ⟨k1, v1⟩ := kv
    cases hb : (k == k1) with
    | true =>
      simp only [List.lookup, hb] at h
      cases h
    | false =>
      simp only [List.lookup, hb] at h ⊢
      exact ih h

/-- Updating one key leaves other keys' lookups unchanged. -/
theorem lookup_mapUpdate_ne {m : List (String × ProviderInfo)} {k k' : String}
    {v : ProviderInfo} (h : k' ≠ k) : (mapUpdate m k v).lookup k' = m.lookup k' := by
  induction m with
  | nil => rfl
  | cons kv t ih =>
    obtain ⟨k1, v1⟩ := kv
    simp only [mapUpdate, List.map_cons] at ih ⊢
    by_cases hk1 : k1 = k
    · rw [if_pos (show (k1, v1).1 = k from hk1)]
      have hb : (k' == k1) = false := beq_eq_false_iff_ne.mpr (hk1 ▸ h)
      have hbk : (k' == k) = false := beq_eq_false_iff_ne.mpr h
      simp only [List.lookup, hb, hbk]
      exact ih
    · rw [if_neg (show ¬(k1, v1).1 = k from hk1)]
      cases hb : (k' == k1) with
      | true => simp only [List.lookup, hb]
      | false =>
        simp only [List.lookup, hb]
        exact ih

/-- Updating a present key makes its lookup the new value. -/
theorem lookup_mapUpdate_some {m : List (String × ProviderInfo)} {k : String}
    {v w : ProviderInfo} (h : m.lookup k = some w) :
    (mapUpdate m k v).lookup k = some v := by
  induction m with
  | nil => cases h
  | cons kv t ih =>
    obtain ⟨k1, v1⟩ := kv
    simp only [mapUpdate, List.map_cons] at ih ⊢
    by_cases hk1 : k1 = k
    · rw [if_pos (show (k1, v1).1 = k from hk1)]
      simp [List.lookup]
    · rw [if_neg (show ¬(k1, v1).1 = k from hk1)]
      have hb : (k == k1) = false := beq_eq_false_iff_ne.mpr (fun he => hk1 he.symm)
      simp only [List.lookup, hb] at h ⊢
      exact ih h

/-- The three shapes one merge iteration can take. -/
theorem providersMergeStep_cases (m : List (String × ProviderInfo)) (p : ProviderInfo) :
    (m.lookup p.AddrInfo.ID = none ∧ providersMergeStep m p = m ++ [(p.AddrInfo.ID, p)])
    ∨ (∃ curr, m.lookup p.AddrInfo.ID = some curr
        ∧ timeBefore curr.LastAdvertisementTime p.LastAdvertisementTime = true
        ∧ providersMergeStep m p = mapUpdate m p.AddrInfo.ID p)
    ∨ (∃ curr, m.lookup p.AddrInfo.ID = some curr
        ∧ timeBefore curr.LastAdvertisementTime p.LastAdvertisementTime = false
        ∧ providersMergeStep m p = m) := by
  cases hl : m.lookup p.AddrInfo.ID with
  | none =>
    refine Or.inl ⟨rfl, ?_⟩
    simp [providersMergeStep, hl]
  | some curr =>
    cases hb : timeBefore curr.LastAdvertisementTime p.LastAdvertisementTime with
    | true =>
      refine Or.inr (Or.inl ⟨curr, rfl, hb, ?_⟩)
      simp [providersMergeStep, hl, hb]
    | false =>
      refine Or.inr (Or.inr ⟨curr, rfl, hb, ?_⟩)
      simp [providersMergeStep, hl, hb]

/-- What one merge iteration does to the lookup of an arbitrary peer. -/
theorem providersMergeStep_lookup (m : List (String × ProviderInfo))
    (p : ProviderInfo) (pid : String) :
    (providersMergeStep m p).lookup pid =
      if p.AddrInfo.ID = pid then
        match m.lookup pid with
        | none => some p
        | some curr =>
          if timeBefore curr.LastAdvertisementTime p.LastAdvertisementTime then some p
          else some curr
      else m.lookup pid := by
  rcases providersMergeStep_cases m p with ⟨hl, hstep⟩ | ⟨curr, hl, hb, hstep⟩
    | ⟨curr, hl, hb, hstep⟩
  · rw [hstep]
    by_cases hid : p.AddrInfo.ID = pid
    · rw [if_pos hid, ← hid, hl, lookup_append_none hl]
      simp [List.lookup]
    · rw [if_neg hid]
      cases hl2 : m.lookup pid with
      | none =>
        rw [lookup_append_none hl2]
        have hb2 : (pid == p.AddrInfo.ID) = false :=
          beq_eq_false_iff_ne.mpr (fun he => hid he.symm)
        simp [List.lookup, hb2]
      | some w => exact lookup_append_some hl2
  · rw [hstep]
    by_cases hid : p.AddrInfo.ID = pid
    · rw [if_pos hid, ← hid]
      simp only [hl, hb, if_true]
      exact lookup_mapUpdate_some hl
    · rw [if_neg hid]
      exact lookup_mapUpdate_ne (fun he => hid he.symm)
  · rw [hstep]
    by_cases hid : p.AddrInfo.ID = pid
    · rw [if_pos hid, ← hid]
      simp [hl, hb]
    · rw [if_neg hid]

/-- Entries after one merge iteration come from the previous map or are
the incoming record keyed by its peer ID. -/
theorem providersMergeStep_mem {m : List (String × ProviderInfo)}
    {p : ProviderInfo} {kv : String × ProviderInfo}
    (h : kv ∈ providersMergeStep m p) : kv ∈ m ∨ kv = (p.AddrInfo.ID, p) := by
  rcases providersMergeStep_cases m p with ⟨hl, hstep⟩ | ⟨curr, hl, hb, hstep⟩
    | ⟨curr, hl, hb, hstep⟩
  · rw [hstep] at h
    rcases List.mem_append.mp h with h | h
    · exact Or.inl h
    · exact Or.inr (List.mem_singleton.mp h)
  · rw [hstep] at h
    rcases List.mem_map.mp h with ⟨kv0, hkv0, hf⟩
    by_cases hk : kv0.1 = p.AddrInfo.ID
    · rw [if_pos hk] at hf
      exact Or.inr hf.symm
    · rw [if_neg hk] at hf
      exact Or.inl (hf ▸ hkv0)
  · rw [hstep] at h
    exact Or.inl h

/-- A true guarded comparison means both timestamps parse and are
strictly ordered. -/
theorem timeBefore_lt {a b : String} (h : timeBefore a b = true) :
    ∀ ta tb : Int, rfc3339Parse a = some ta → rfc3339Parse b = some tb → ta < tb := by
  intro ta tb ha hb
  unfold timeBefore at h
  rw [ha, hb] at h
  exact of_decide_eq_true h

/-- A false guarded comparison with both timestamps parseable means the
second is at most the first. -/
theorem timeBefore_ge {a b : String} (h : timeBefore a b = false) :
    ∀ ta tb : Int, rfc3339Parse a = some ta → rfc3339Parse b = some tb → tb ≤ ta := by
  intro ta tb ha hb
  unfold timeBefore at h
  rw [ha, hb] at h
  exact le_of_not_lt (of_decide_eq_false h)

/-- The invariant of the `/providers` merge fold: a kept record comes
from the received records or the initial map, and — when every received
record for its peer carries a parseable timestamp, as does every initial
entry — its timestamp is at least every received and initial timestamp
for that peer. -/
theorem providersMerge_fold_lookup (recs : List ProviderInfo)
    (m : List (String × ProviderInfo)) (pid : String)
    (hp : ∀ r ∈ recs, (rfc3339Parse r.LastAdvertisementTime).isSome = true)
    (hm : ∀ kv ∈ m, kv.2.AddrInfo.ID = kv.1
      ∧ (rfc3339Parse kv.2.LastAdvertisementTime).isSome = true)
    (k : ProviderInfo)
    (hk : (recs.foldl providersMergeStep m).lookup pid = some k) :
    ((k ∈ recs ∧ k.AddrInfo.ID = pid) ∨ m.lookup pid = some k)
    ∧ (∀ r ∈ recs, r.AddrInfo.ID = pid → tLE r k)
    ∧ (∀ curr, m.lookup pid = some curr → tLE curr k) := by
  induction recs generalizing m with
  | nil =>
    simp only [List.foldl_nil] at hk
    refine ⟨Or.inr hk, by simp, ?_⟩
    intro curr hc
    rw [hk] at hc
    cases hc
    intro tr tk h1 h2
    rw [h1] at h2
    cases h2
    exact le_refl _
  | cons p rest ih =>
    simp only [List.foldl_cons] at hk
    have hpp : (rfc3339Parse p.LastAdvertisementTime).isSome = true :=
      hp p (List.mem_cons_self _ _)
    have hprest : ∀ r ∈ rest, (rfc3339Parse r.LastAdvertisementTime).isSome = true :=
      fun r hr => hp r (List.mem_cons_of_mem _ hr)
    have hm' : ∀ kv ∈ providersMergeStep m p, kv.2.AddrInfo.ID = kv.1
        ∧ (rfc3339Parse kv.2.LastAdvertisementTime).isSome = true := by
      intro kv hkv
      rcases providersMergeStep_mem hkv with h | h
      · exact hm kv h
      · rw [h]
        exact ⟨rfl, hpp⟩
    have IH := ih (providersMergeStep m p) hprest hm' hk
    have hlp := providersMergeStep_lookup m p pid
    by_cases hid : p.AddrInfo.ID = pid
    · -- the incoming record is for the queried peer
      rw [if_pos hid] at hlp
      -- what the step's lookup for pid is, by cases on the previous map
      cases hl2 : m.lookup pid with
      | none =>
        rw [hl2] at hlp
        have hlp2 : (providersMergeStep m p).lookup pid = some p := hlp
        refine ⟨?_, ?_, ?_⟩
        · rcases IH.1 with ⟨hkr, hkid⟩ | hkm
          · exact Or.inl ⟨List.mem_cons_of_mem _ hkr, hkid⟩
          · rw [hlp2] at hkm
            cases hkm
            exact Or.inl ⟨List.mem_cons_self _ _, hid⟩
        · intro r hr hrid
          rcases List.mem_cons.mp hr with rfl | hr'
          · exact IH.2.2 r hlp2
          · exact IH.2.1 r hr' hrid
        · intro curr hc
          simp at hc
      | some curr0 =>
        rw [hl2] at hlp
        by_cases hb : timeBefore curr0.LastAdvertisementTime p.LastAdvertisementTime = true
        · have hlp2 : (providersMergeStep m p).lookup pid = some p := by
            rw [hlp]
            simp [hb]
          refine ⟨?_, ?_, ?_⟩
          · rcases IH.1 with ⟨hkr, hkid⟩ | hkm
            · exact Or.inl ⟨List.mem_cons_of_mem _ hkr, hkid⟩
            · rw [hlp2] at hkm
              cases hkm
              exact Or.inl ⟨List.mem_cons_self _ _, hid⟩
          · intro r hr hrid
            rcases List.mem_cons.mp hr with rfl | hr'
            · exact IH.2.2 r hlp2
            · exact IH.2.1 r hr' hrid
          · intro curr hc
            cases hc
            -- curr0 was strictly before p, which the step kept
            have hpk : tLE p k := IH.2.2 p hlp2
            intro tr tk h1 h2
            rcases Option.isSome_iff_exists.mp hpp with ⟨tp, htp⟩
            have h3 := timeBefore_lt hb tr tp h1 htp
            exact le_trans (le_of_lt h3) (hpk tp tk htp h2)
        · have hbf : timeBefore curr0.LastAdvertisementTime p.LastAdvertisementTime = false :=
            Bool.eq_false_iff.mpr hb
          have hlp2 : (providersMergeStep m p).lookup pid = some curr0 := by
            rw [hlp]
            simp [hbf]
          -- the step kept curr0
          have hcurr0 : tLE curr0 k := IH.2.2 curr0 hlp2
          have hc0p : (rfc3339Parse curr0.LastAdvertisementTime).isSome = true :=
            (hm (pid, curr0) (lookup_mem hl2)).2
          refine ⟨?_, ?_, ?_⟩
          · rcases IH.1 with ⟨hkr, hkid⟩ | hkm
            · exact Or.inl ⟨List.mem_cons_of_mem _ hkr, hkid⟩
            · rw [hlp2] at hkm
              exact Or.inr hkm
          · intro r hr hrid
            rcases List.mem_cons.mp hr with rfl | hr'
            · -- r lost to curr0: t(r) ≤ t(curr0) ≤ t(k)
              intro tr tk h1 h2
              rcases Option.isSome_iff_exists.mp hc0p with ⟨tc, htc⟩
              have h3 := timeBefore_ge hbf tc tr htc h1
              exact le_trans h3 (hcurr0 tc tk htc h2)
            · exact IH.2.1 r hr' hrid
          · intro curr hc
            cases hc
            exact hcurr0
    · -- the incoming record is for a different peer: lookups unchanged
      rw [if_neg hid] at hlp
      refine ⟨?_, ?_, ?_⟩
      · rcases IH.1 with ⟨hkr, hkid⟩ | hkm
        · exact Or.inl ⟨List.mem_cons_of_mem _ hkr, hkid⟩
        · exact Or.inr (hlp ▸ hkm)
      · intro r hr hrid
        rcases List.mem_cons.mp hr with rfl | hr'
        · exact absurd hrid hid
        · exact IH.2.1 r hr' hrid
      · intro curr hc
        exact IH.2.2 curr (by rw [hlp]; exact hc)

/-- The invariant of the single-provider merge fold: starting from a
record that is either the zero value or parseable, the fold keeps a
received record or the start value, and — when every received record is
parseable — the kept record's timestamp is at least every received and
initial timestamp. -/
theorem providerMerge_fold (recs : List ProviderInfo) (resp : ProviderInfo)
    (hp : ∀ r ∈ recs, (rfc3339Parse r.LastAdvertisementTime).isSome = true)
    (hresp : resp.LastAdvertisementTime = ""
      ∨ (rfc3339Parse resp.LastAdvertisementTime).isSome = true) :
    (recs.foldl providerMergeStep resp ∈ recs ∨ recs.foldl providerMergeStep resp = resp)
    ∧ (∀ r ∈ recs, tLE r (recs.foldl providerMergeStep resp))
    ∧ (∀ t0 tk : Int, rfc3339Parse resp.LastAdvertisementTime = some t0 →
        rfc3339Parse (recs.foldl providerMergeStep resp).LastAdvertisementTime = some tk →
        t0 ≤ tk) := by
  induction recs generalizing resp with
  | nil =>
    refine ⟨Or.inr rfl, by simp, ?_⟩
    intro t0 tk h1 h2
    simp only [List.foldl_nil] at h2
    rw [h1] at h2
    cases h2
    exact le_refl _
  | cons p rest ih =>
    have hpp : (rfc3339Parse p.LastAdvertisementTime).isSome = true :=
      hp p (List.mem_cons_self _ _)
    have hprest : ∀ r ∈ rest, (rfc3339Parse r.LastAdvertisementTime).isSome = true :=
      fun r hr => hp r (List.mem_cons_of_mem _ hr)
    simp only [List.foldl_cons]
    by_cases hempty : resp.LastAdvertisementTime = ""
    · -- first record adopted unconditionally
      have hstep : providerMergeStep resp p = p := by
        simp [providerMergeStep, hempty]
      rw [hstep]
      have IH := ih p hprest (Or.inr hpp)
      refine ⟨?_, ?_, ?_⟩
      · rcases IH.1 with h | h
        · exact Or.inl (List.mem_cons_of_mem _ h)
        · exact Or.inl (by rw [h]; exact List.mem_cons_self _ _)
      · intro r hr
        rcases List.mem_cons.mp hr with rfl | hr'
        · exact fun tr tk h1 h2 => IH.2.2 tr tk h1 h2
        · exact IH.2.1 r hr'
      · intro t0 tk h1 h2
        rw [hempty] at h1
        have : rfc3339Parse "" = none := rfl
        rw [this] at h1
        cases h1
    · have hrp : (rfc3339Parse resp.LastAdvertisementTime).isSome = true := by
        rcases hresp with h | h
        · exact absurd h hempty
        · exact h
      rcases Option.isSome_iff_exists.mp hrp with ⟨t0r, ht0r⟩
      by_cases hb : timeBefore resp.LastAdvertisementTime p.LastAdvertisementTime = true
      · have hstep : providerMergeStep resp p = p := by
          simp [providerMergeStep, hempty, hb]
        rw [hstep]
        have IH := ih p hprest (Or.inr hpp)
        refine ⟨?_, ?_, ?_⟩
        · rcases IH.1 with h | h
          · exact Or.inl (List.mem_cons_of_mem _ h)
          · exact Or.inl (by rw [h]; exact List.mem_cons_self _ _)
        · intro r hr
          rcases List.mem_cons.mp hr with rfl | hr'
          · exact fun tr tk h1 h2 => IH.2.2 tr tk h1 h2
          · exact IH.2.1 r hr'
        · intro t0 tk h1 h2
          rcases Option.isSome_iff_exists.mp hpp with ⟨tp, htp⟩
          have h3 := timeBefore_lt hb t0 tp h1 htp
          exact le_trans (le_of_lt h3) (IH.2.2 tp tk htp h2)
      · have hbf : timeBefore resp.LastAdvertisementTime p.LastAdvertisementTime = false :=
          Bool.eq_false_iff.mpr hb
        have hstep : providerMergeStep resp p = resp := by
          simp [providerMergeStep, hempty, hbf]
        rw [hstep]
        have IH := ih resp hprest (Or.inr hrp)
        refine ⟨?_, ?_, ?_⟩
        · rcases IH.1 with h | h
          · exact Or.inl (List.mem_cons_of_mem _ h)
          · exact Or.inr h
        · intro r hr
          rcases List.mem_cons.mp hr with rfl | hr'
          · intro tr tk h1 h2
            have h3 := timeBefore_ge hbf t0r tr ht0r h1
            exact le_trans h3 (IH.2.2 t0r tk ht0r h2)
          · exact IH.2.1 r hr'
        · exact IH.2.2

/-- C9 (counterexample): a record with an unparseable
`lastAdvertisementTime` that arrives first is kept over a later record
for the same peer whose timestamp parses, in both the `/providers` map
merge and the `/providers/{pid}` merge — so the record kept is not
always the one with the latest parseable `lastAdvertisementTime`. -/
theorem providers_merge_latest_counterexample :
    keptFor [⟨⟨"peer1", ["a1"]⟩, "garbage"⟩, ⟨⟨"peer1", ["a2"]⟩, "2023-05-01T00:00:00Z"⟩]
        "peer1" = some ⟨⟨"peer1", ["a1"]⟩, "garbage"⟩
    ∧ providerMerge [⟨⟨"peer1", ["a1"]⟩, "garbage"⟩, ⟨⟨"peer1", ["a2"]⟩, "2023-05-01T00:00:00Z"⟩]
        = ⟨⟨"peer1", ["a1"]⟩, "garbage"⟩
    ∧ rfc3339Parse "garbage" = none
    ∧ (rfc3339Parse "2023-05-01T00:00:00Z").isSome = true
    ∧ (⟨⟨"peer1", ["a1"]⟩, "garbage"⟩ : ProviderInfo)
        ≠ ⟨⟨"peer1", ["a2"]⟩, "2023-05-01T00:00:00Z"⟩ := by
  refine ⟨rfl, rfl, rfl, rfl, ?_⟩
  decide

/-- C9 (amended): a later record replaces the kept one only when both
timestamps parse and the kept one's is strictly earlier.  Consequently,
when every received record carries a parseable `lastAdvertisementTime`,
the record kept for a peer (in the `/providers` map merge) is one of the
received records for that peer and its timestamp is at least that of
every received record for that peer; likewise the `/providers/{pid}`
merge keeps a received record whose timestamp is at least every received
timestamp. -/
theorem providers_merge_latest_parseable (recs : List ProviderInfo) (pid : String)
    (hp : ∀ r ∈ recs, (rfc3339Parse r.LastAdvertisementTime).isSome = true) :
    (∀ k, keptFor recs pid = some k →
      k ∈ recs ∧ k.AddrInfo.ID = pid
      ∧ ∀ r ∈ recs, r.AddrInfo.ID = pid → tLE r k)
    ∧ (∀ r ∈ recs, tLE r (providerMerge recs))
    ∧ (recs ≠ [] → providerMerge recs ∈ recs) := by
  refine ⟨?_, ?_, ?_⟩
  · intro k hk
    have h := providersMerge_fold_lookup recs [] pid hp (by simp) k hk
    rcases h.1 with ⟨hkr, hkid⟩ | hkm
    · exact ⟨hkr, hkid, h.2.1⟩
    · cases hkm
  · intro r hr
    exact (providerMerge_fold recs emptyProviderInfo hp (Or.inl rfl)).2.1 r hr
  · intro hne
    cases recs with
    | nil => exact absurd rfl hne
    | cons p rest =>
      have hstep : providerMerge (p :: rest) = rest.foldl providerMergeStep p := by
        unfold providerMerge
        rw [List.foldl_cons]
        have hfirst : providerMergeStep emptyProviderInfo p = p := by
          simp [providerMergeStep, emptyProviderInfo]
        rw [hfirst]
      rw [hstep]
      have hpp : (rfc3339Parse p.LastAdvertisementTime).isSome = true :=
        hp p (List.mem_cons_self _ _)
      have hprest : ∀ r ∈ rest, (rfc3339Parse r.LastAdvertisementTime).isSome = true :=
        fun r hr => hp r (List.mem_cons_of_mem _ hr)
      rcases (providerMerge_fold rest p hprest (Or.inr hpp)).1 with h | h
      · exact List.mem_cons_of_mem _ h
      · rw [h]
        exact List.mem_cons_self _ _

/-- C9 witness: one record with a parseable timestamp; the merges keep it
and the bounds hold. -/
theorem providers_merge_latest_parseable_witness :
    (∀ k, keptFor [⟨⟨"peer1", ["a2"]⟩, "2023-05-01T00:00:00Z"⟩] "peer1" = some k →
      k ∈ [⟨⟨"peer1", ["a2"]⟩, "2023-05-01T00:00:00Z"⟩] ∧ k.AddrInfo.ID = "peer1"
      ∧ ∀ r ∈ [⟨⟨"peer1", ["a2"]⟩, "2023-05-01T00:00:00Z"⟩], r.AddrInfo.ID = "peer1" → tLE r k)
    ∧ (∀ r ∈ [⟨⟨"peer1", ["a2"]⟩, "2023-05-01T00:00:00Z"⟩],
        tLE r (providerMerge [⟨⟨"peer1", ["a2"]⟩, "2023-05-01T00:00:00Z"⟩]))
    ∧ ([⟨⟨"peer1", ["a2"]⟩, "2023-05-01T00:00:00Z"⟩] ≠ ([] : List ProviderInfo) →
        providerMerge [⟨⟨"peer1", ["a2"]⟩, "2023-05-01T00:00:00Z"⟩]
          ∈ [⟨⟨"peer1", ["a2"]⟩, "2023-05-01T00:00:00Z"⟩]) :=
  providers_merge_latest_parseable [⟨⟨"peer1", ["a2"]⟩, "2023-05-01T00:00:00Z"⟩] "peer1"
    (by intro r hr; rw [List.mem_singleton.mp hr]; rfl)

/-! ### The doFind merge: gathered errors, heads, and deduplication -/

/-- The plain half of a gather iteration never touches `gatherErrs`. -/
theorem doFindStepPlain_gatherErrs {b : BackendKind} {st : DoFindState}
    {incoming : List MultihashResult} {p : DoFindState × Bool}
    (h : doFindStepPlain b st incoming = .ok p) : p.1.gatherErrs = st.gatherErrs := by
  unfold doFindStepPlain at h
  split at h
  · injection h with h2
    subst h2
    rfl
  · split at h
    · injection h with h2
      subst h2
      rfl
    · split at h
      · injection h with h2
        subst h2
        rfl
      · exact Except.noConfusion h

/-- The encrypted half of a gather iteration never touches `gatherErrs`. -/
theorem doFindStepEnc_gatherErrs {b : BackendKind} {st : DoFindState}
    {incoming : List EncryptedMultihashResult} {st1 : DoFindState}
    (h : doFindStepEnc b st incoming = .ok st1) : st1.gatherErrs = st.gatherErrs := by
  unfold doFindStepEnc at h
  split at h
  · injection h with h2
    subst h2
    rfl
  · split at h
    · injection h with h2
      subst h2
      rfl
    · split at h
      · injection h with h2
        subst h2
        rfl
      · exact Except.noConfusion h

/-- Inversion of a successful response's gather iteration: the plain half
ran, and the encrypted half ran unless the plain half hit the duplicate
skip. -/
theorem doFindStep_success_inv {st : DoFindState} {b : BackendKind}
    {rsp : FindResponse} {st1 : DoFindState}
    (h : doFindStep st (.success b rsp) = .ok st1) :
    ∃ p, doFindStepPlain b st rsp.MultihashResults = .ok p
      ∧ ((p.2 = true ∧ st1 = p.1)
        ∨ (p.2 = false ∧ doFindStepEnc b p.1 rsp.EncryptedMultihashResults = .ok st1)) := by
  have h' : (doFindStepPlain b st rsp.MultihashResults >>= fun p =>
      if p.2 then Except.ok p.1
      else doFindStepEnc b p.1 rsp.EncryptedMultihashResults) = .ok st1 := h
  cases hp : doFindStepPlain b st rsp.MultihashResults with
  | error e =>
    rw [hp] at h'
    exact Except.noConfusion h'
  | ok p =>
    rw [hp] at h'
    have h2 : (if p.2 then Except.ok p.1
        else doFindStepEnc b p.1 rsp.EncryptedMultihashResults) = .ok st1 := h'
    refine ⟨p, rfl, ?_⟩
    cases hsk : p.2 with
    | true =>
      rw [hsk] at h2
      simp only [if_true] at h2
      injection h2 with h3
      exact Or.inl ⟨rfl, h3.symm⟩
    | false =>
      rw [hsk] at h2
      simp only [Bool.false_eq_true, if_false] at h2
      exact Or.inr ⟨rfl, h2⟩

/-- A successful response's gather iteration never touches `gatherErrs`. -/
theorem doFindStep_success_gatherErrs {st : DoFindState} {b : BackendKind}
    {rsp : FindResponse} {st1 : DoFindState}
    (h : doFindStep st (.success b rsp) = .ok st1) : st1.gatherErrs = st.gatherErrs := by
  rcases doFindStep_success_inv h with ⟨p, hp, ⟨_, hst⟩ | ⟨_, henc⟩⟩
  · rw [hst]
    exact doFindStepPlain_gatherErrs hp
  · rw [doFindStepEnc_gatherErrs henc]
    exact doFindStepPlain_gatherErrs hp

/-- Across the whole gather loop, `gatherErrs` counts exactly the
gathered transport errors. -/
theorem doFindMerge_fold_gatherErrs (rs : List SgFind) (s st : DoFindState)
    (h : rs.foldlM doFindStep s = .ok st) :
    st.gatherErrs = s.gatherErrs + rs.countP (fun r => r = SgFind.failure) := by
  induction rs generalizing s with
  | nil =>
    simp only [List.foldlM_nil] at h
    injection h with h2
    subst h2
    simp
  | cons r rest ih =>
    simp only [List.foldlM_cons] at h
    cases r with
    | failure =>
      have h1 : doFindStep s .failure = .ok { s with gatherErrs := s.gatherErrs + 1 } := rfl
      rw [h1] at h
      have h2 : (Except.ok { s with gatherErrs := s.gatherErrs + 1 } >>=
          fun s' => rest.foldlM doFindStep s') = rest.foldlM doFindStep
            { s with gatherErrs := s.gatherErrs + 1 } := rfl
      rw [h2] at h
      rw [ih _ h]
      simp [List.countP_cons]
      omega
    | success b rsp =>
      cases hstep : doFindStep s (.success b rsp) with
      | error e =>
        rw [hstep] at h
        exact Except.noConfusion h
      | ok s1 =>
        rw [hstep] at h
        have h2 : (Except.ok s1 >>= fun s' => rest.foldlM doFindStep s') =
            rest.foldlM doFindStep s1 := rfl
        rw [h2] at h
        rw [ih _ h, doFindStep_success_gatherErrs hstep]
        simp [List.countP_cons]

/-- C1: for every gathered sequence that merges without a multihash
conflict, `doFind` returns 504 when the merged response is empty and some
worker reported a transport error, 404 when it is empty and no worker
did, and 200 with the merged response as soon as any result entry was
merged, no matter how many other backends failed. -/
theorem doFind_aggregate_status (rs : List SgFind) (st : DoFindState)
    (h : doFindMerge rs = .ok st) :
    ((st.resp.MultihashResults = [] ∧ st.resp.EncryptedMultihashResults = []) →
      doFindResult rs =
        ((if rs.any fun r => r = SgFind.failure then 504 else 404), none))
    ∧ ((st.resp.MultihashResults ≠ [] ∨ st.resp.EncryptedMultihashResults ≠ []) →
      doFindResult rs = (200, some st.resp)) := by
  have herr : st.gatherErrs = rs.countP (fun r => r = SgFind.failure) := by
    have := doFindMerge_fold_gatherErrs rs initDoFindState st h
    simpa [initDoFindState] using this
  have hred : doFindResult rs =
      (if st.resp.MultihashResults = [] ∧ st.resp.EncryptedMultihashResults = [] then
        if st.gatherErrs ≠ 0 then ((504 : Nat), (none : Option FindResponse))
        else (404, none)
      else (200, some st.resp)) := by
    unfold doFindResult
    rw [h]
  constructor
  · rintro ⟨h1, h2⟩
    rw [hred, if_pos (And.intro h1 h2), herr]
    by_cases hany : (rs.any fun r => r = SgFind.failure) = true
    · have hcount : rs.countP (fun r => r = SgFind.failure) ≠ 0 := by
        simp only [List.any_eq_true, decide_eq_true_eq] at hany
        rcases hany with ⟨r, hr, hrf⟩
        have hpos : 0 < rs.countP (fun r => decide (r = SgFind.failure)) :=
          List.countP_pos_iff.mpr ⟨r, hr, by simp [hrf]⟩
        omega
      rw [if_pos hcount, if_pos hany]
    · have hcount : rs.countP (fun r => r = SgFind.failure) = 0 := by
        rw [List.countP_eq_zero]
        intro r hr
        simp only [decide_eq_true_eq]
        intro hrf
        exact hany (List.any_eq_true.mpr ⟨r, hr, by simp [hrf]⟩)
      rw [if_neg (show ¬rs.countP (fun r => r = SgFind.failure) ≠ 0 by omega),
        if_neg hany]
  · intro hne
    rw [hred, if_neg]
    rcases hne with hne | hne
    · exact fun hc => hne hc.1
    · exact fun hc => hne hc.2

/-- C1 witness: an empty gathered sequence merges to the empty state and
yields 404. -/
theorem doFind_aggregate_status_witness : doFindResult [] = (404, none) := by
  have h := (doFind_aggregate_status [] initDoFindState rfl).1 ⟨rfl, rfl⟩
  simpa using h

/-- Reduction of the plain half on a non-empty incoming list. -/
theorem doFindStepPlain_cons (b : BackendKind) (st : DoFindState)
    (new0 : MultihashResult) (t : List MultihashResult) :
    doFindStepPlain b st (new0 :: t) =
      (match st.resp.MultihashResults with
      | [] =>
        .ok ({ st with
                resp := { st.resp with MultihashResults := new0 :: t }
                foundCaskade := (updateFoundFlags b st.foundCaskade st.foundRegular).1
                foundRegular := (updateFoundFlags b st.foundCaskade st.foundRegular).2 },
          false)
      | cur0 :: rest =>
        if cur0.Multihash = new0.Multihash then
          .ok ({ st with
                  resp := { st.resp with MultihashResults :=
                    { cur0 with ProviderResults :=
                        (mergeProviderResults b cur0.ProviderResults
                          new0.ProviderResults st.foundCaskade st.foundRegular).1 } :: rest }
                  foundCaskade := (mergeProviderResults b cur0.ProviderResults
                      new0.ProviderResults st.foundCaskade st.foundRegular).2.1
                  foundRegular := (mergeProviderResults b cur0.ProviderResults
                      new0.ProviderResults st.foundCaskade st.foundRegular).2.2.1 },
            (mergeProviderResults b cur0.ProviderResults
                new0.ProviderResults st.foundCaskade st.foundRegular).2.2.2)
        else .error ()) := rfl

/-- Reduction of the encrypted half on a non-empty incoming list. -/
theorem doFindStepEnc_cons (b : BackendKind) (st : DoFindState)
    (new0 : EncryptedMultihashResult) (t : List EncryptedMultihashResult) :
    doFindStepEnc b st (new0 :: t) =
      (match st.resp.EncryptedMultihashResults with
      | [] =>
        .ok { st with
                resp := { st.resp with EncryptedMultihashResults := new0 :: t }
                foundCaskade := (updateFoundFlags b st.foundCaskade st.foundRegular).1
                foundRegular := (updateFoundFlags b st.foundCaskade st.foundRegular).2 }
      | cur0 :: rest =>
        if cur0.Multihash = new0.Multihash then
          .ok { st with
                  resp := { st.resp with EncryptedMultihashResults :=
                    { cur0 with EncryptedValueKeys :=
                        cur0.EncryptedValueKeys ++ new0.EncryptedValueKeys } :: rest }
                  foundCaskade := (updateFoundFlags b st.foundCaskade st.foundRegular).1
                  foundRegular := (updateFoundFlags b st.foundCaskade st.foundRegular).2 }
        else .error ()) := rfl

/-- Inversion of the plain half: it leaves the state alone on an empty
incoming list, adopts a non-empty incoming list when nothing was merged
yet, or merges into the first entry when the multihashes agree. -/
theorem doFindStepPlain_inv {b : BackendKind} {st : DoFindState}
    {incoming : List MultihashResult} {p : DoFindState × Bool}
    (h : doFindStepPlain b st incoming = .ok p) :
    (incoming = [] ∧ p.1 = st ∧ p.2 = false)
    ∨ (∃ new0 t, incoming = new0 :: t ∧ st.resp.MultihashResults = []
        ∧ p.1.resp.MultihashResults = new0 :: t
        ∧ p.1.resp.EncryptedMultihashResults = st.resp.EncryptedMultihashResults
        ∧ p.2 = false)
    ∨ (∃ new0 t cur0 rest, incoming = new0 :: t
        ∧ st.resp.MultihashResults = cur0 :: rest
        ∧ cur0.Multihash = new0.Multihash
        ∧ p.1.resp.MultihashResults =
            { cur0 with ProviderResults := (mergeProviderResults b cur0.ProviderResults
                new0.ProviderResults st.foundCaskade st.foundRegular).1 } :: rest
        ∧ p.1.resp.EncryptedMultihashResults = st.resp.EncryptedMultihashResults) := by
  cases incoming with
  | nil =>
    have h' : Except.ok ((st, false) : DoFindState × Bool) = .ok p := h
    injection h' with h2
    exact Or.inl ⟨rfl, by rw [← h2], by rw [← h2]⟩
  | cons new0 t =>
    rw [doFindStepPlain_cons] at h
    split at h
    · rename_i hmr
      injection h with h2
      exact Or.inr (Or.inl ⟨new0, t, rfl, hmr, by rw [← h2], by rw [← h2], by rw [← h2]⟩)
    · rename_i cur0 rest hmr
      split at h
      · rename_i hcond
        injection h with h2
        exact Or.inr (Or.inr ⟨new0, t, cur0, rest, rfl, hmr, hcond,
          by rw [← h2], by rw [← h2]⟩)
      · exact Except.noConfusion h

/-- Inversion of the encrypted half, mirroring `doFindStepPlain_inv`. -/
theorem doFindStepEnc_inv {b : BackendKind} {st : DoFindState}
    {incoming : List EncryptedMultihashResult} {st1 : DoFindState}
    (h : doFindStepEnc b st incoming = .ok st1) :
    (incoming = [] ∧ st1 = st)
    ∨ (∃ new0 t, incoming = new0 :: t ∧ st.resp.EncryptedMultihashResults = []
        ∧ st1.resp.EncryptedMultihashResults = new0 :: t
        ∧ st1.resp.MultihashResults = st.resp.MultihashResults)
    ∨ (∃ new0 t cur0 rest, incoming = new0 :: t
        ∧ st.resp.EncryptedMultihashResults = cur0 :: rest
        ∧ cur0.Multihash = new0.Multihash
        ∧ st1.resp.EncryptedMultihashResults =
            { cur0 with EncryptedValueKeys :=
                cur0.EncryptedValueKeys ++ new0.EncryptedValueKeys } :: rest
        ∧ st1.resp.MultihashResults = st.resp.MultihashResults) := by
  cases incoming with
  | nil =>
    have h' : Except.ok st = .ok st1 := h
    injection h' with h2
    exact Or.inl ⟨rfl, h2.symm⟩
  | cons new0 t =>
    rw [doFindStepEnc_cons] at h
    split at h
    · rename_i hmr
      injection h with h2
      exact Or.inr (Or.inl ⟨new0, t, rfl, hmr, by rw [← h2], by rw [← h2]⟩)
    · rename_i cur0 rest hmr
      split at h
      · rename_i hcond
        injection h with h2
        exact Or.inr (Or.inr ⟨new0, t, cur0, rest, rfl, hmr, hcond,
          by rw [← h2], by rw [← h2]⟩)
      · exact Except.noConfusion h

/-- Destructing a defined first-entry multihash. -/
theorem headMh_eq_some {l : List MultihashResult} {m : Bytes} (h : headMh l = some m) :
    ∃ mr t, l = mr :: t ∧ mr.Multihash = m := by
  cases l with
  | nil => exact Option.noConfusion h
  | cons mr t =>
    refine ⟨mr, t, rfl, ?_⟩
    have h' : some mr.Multihash = some m := h
    injection h'

/-- Destructing a defined first-entry encrypted multihash. -/
theorem headEncMh_eq_some {l : List EncryptedMultihashResult} {m : Bytes}
    (h : headEncMh l = some m) : ∃ mr t, l = mr :: t ∧ mr.Multihash = m := by
  cases l with
  | nil => exact Option.noConfusion h
  | cons mr t =>
    refine ⟨mr, t, rfl, ?_⟩
    have h' : some mr.Multihash = some m := h
    injection h'

/-- Across one gather iteration: the first plain and encrypted
multihashes are stable once defined; a merged success with a non-empty
plain list forces the first plain multihash to be its own; a merged
success with no plain results and a non-empty encrypted list forces the
first encrypted multihash to be its own (the plain list being empty, the
duplicate skip cannot intervene). -/
theorem doFindStep_heads {st : DoFindState} {r : SgFind} {st1 : DoFindState}
    (h : doFindStep st r = .ok st1) :
    (∀ m, headMh st.resp.MultihashResults = some m →
      headMh st1.resp.MultihashResults = some m)
    ∧ (∀ m, headEncMh st.resp.EncryptedMultihashResults = some m →
      headEncMh st1.resp.EncryptedMultihashResults = some m)
    ∧ (∀ b rsp n0 t, r = SgFind.success b rsp → rsp.MultihashResults = n0 :: t →
      headMh st1.resp.MultihashResults = some n0.Multihash)
    ∧ (∀ b rsp n0 t, r = SgFind.success b rsp → rsp.MultihashResults = [] →
      rsp.EncryptedMultihashResults = n0 :: t →
      headEncMh st1.resp.EncryptedMultihashResults = some n0.Multihash) := by
  cases r with
  | failure =>
    have h' : Except.ok { st with gatherErrs := st.gatherErrs + 1 } = .ok st1 := h
    injection h' with h2
    subst h2
    exact ⟨fun m hm => hm, fun m hm => hm,
      fun b rsp n0 t hr => SgFind.noConfusion hr,
      fun b rsp n0 t hr => SgFind.noConfusion hr⟩
  | success b rsp =>
    rcases doFindStep_success_inv h with ⟨p, hp, hcase⟩
    -- the encrypted list entering the encrypted half equals the original
    have hpE : p.1.resp.EncryptedMultihashResults = st.resp.EncryptedMultihashResults := by
      rcases doFindStepPlain_inv hp with ⟨_, hpst, _⟩ | ⟨_, _, _, _, _, hpenc, _⟩
        | ⟨_, _, _, _, _, _, _, _, hpenc⟩
      · rw [hpst]
      · exact hpenc
      · exact hpenc
    -- the plain list never changes after the plain half
    have hstMR : st1.resp.MultihashResults = p.1.resp.MultihashResults := by
      rcases hcase with ⟨_, h'⟩ | ⟨_, henc⟩
      · rw [h']
      · rcases doFindStepEnc_inv henc with ⟨_, h'⟩ | ⟨_, _, _, _, _, h'⟩
          | ⟨_, _, _, _, _, _, _, _, h'⟩
        · rw [h']
        · exact h'
        · exact h'
    refine ⟨?_, ?_, ?_, ?_⟩
    · intro m hm
      rw [hstMR]
      rcases doFindStepPlain_inv hp with ⟨_, hpst, _⟩ | ⟨new0, t0, _, hmr, _, _, _⟩
        | ⟨new0, t0, cur0, rest0, _, hmr, hcond, hpmr, _⟩
      · rw [hpst]
        exact hm
      · rw [hmr] at hm
        exact Option.noConfusion hm
      · rw [hmr] at hm
        have hm' : some cur0.Multihash = some m := hm
        injection hm' with hm2
        rw [hpmr]
        have : headMh ({ cur0 with ProviderResults :=
            (mergeProviderResults b cur0.ProviderResults new0.ProviderResults
              st.foundCaskade st.foundRegular).1 } :: rest0) = some cur0.Multihash := rfl
        rw [this, hm2]
    · intro m hm
      rcases hcase with ⟨_, h'⟩ | ⟨_, henc⟩
      · rw [h', hpE]
        exact hm
      · rcases doFindStepEnc_inv henc with ⟨_, h'⟩ | ⟨new0, t0, henc0, hse, _⟩
          | ⟨new0, t0, cur0, rest0, _, hse, hcond, hsenc, _⟩
        · rw [h', hpE]
          exact hm
        · rw [hpE] at hse
          rw [hse] at hm
          exact Option.noConfusion hm
        · rw [hpE] at hse
          rw [hse] at hm
          have hm' : some cur0.Multihash = some m := hm
          injection hm' with hm2
          rw [hsenc]
          have : headEncMh ({ cur0 with EncryptedValueKeys :=
              cur0.EncryptedValueKeys ++ new0.EncryptedValueKeys } :: rest0) =
                some cur0.Multihash := rfl
          rw [this, hm2]
    · intro b' rsp' n0 t hr hmr'
      injection hr with hb2 hr2
      subst hb2
      subst hr2
      rw [hstMR]
      rcases doFindStepPlain_inv hp with ⟨hinc, _, _⟩ | ⟨new0, t0, hinc, _, hpmr, _, _⟩
        | ⟨new0, t0, cur0, rest0, hinc, _, hcond, hpmr, _⟩
      · rw [hmr'] at hinc
        exact List.noConfusion hinc
      · rw [hmr'] at hinc
        injection hinc with hn0 _
        rw [hpmr]
        have : headMh (new0 :: t0) = some new0.Multihash := rfl
        rw [this, hn0]
      · rw [hmr'] at hinc
        injection hinc with hn0 _
        rw [hpmr]
        have : headMh ({ cur0 with ProviderResults :=
            (mergeProviderResults b cur0.ProviderResults new0.ProviderResults
              st.foundCaskade st.foundRegular).1 } :: rest0) = some cur0.Multihash := rfl
        rw [this, hcond, hn0]
    · intro b' rsp' n0 t hr hplainEmpty hencCons
      injection hr with hb2 hr2
      subst hb2
      subst hr2
      rcases doFindStepPlain_inv hp with ⟨hinc, hpst, hpsk⟩ | ⟨new0, t0, hinc, _, _, _, _⟩
        | ⟨new0, t0, cur0, rest0, hinc, _, _, _, _⟩
      · rcases hcase with ⟨hsk, _⟩ | ⟨_, henc⟩
        · rw [hpsk] at hsk
          exact Bool.noConfusion hsk
        · rw [hpst] at henc
          rcases doFindStepEnc_inv henc with ⟨he, _⟩ | ⟨new0, t0, he, _, hsenc, _⟩
            | ⟨new0, t0, cur0, rest0, he, hse, hcond, hsenc, _⟩
          · rw [hencCons] at he
            exact List.noConfusion he
          · rw [hencCons] at he
            injection he with hn0 _
            rw [hsenc]
            have : headEncMh (new0 :: t0) = some new0.Multihash := rfl
            rw [this, hn0]
          · rw [hencCons] at he
            injection he with hn0 _
            rw [hsenc]
            have : headEncMh ({ cur0 with EncryptedValueKeys :=
                cur0.EncryptedValueKeys ++ new0.EncryptedValueKeys } :: rest0) =
                  some cur0.Multihash := rfl
            rw [this, hcond, hn0]
      · rw [hplainEmpty] at hinc
        exact List.noConfusion hinc
      · rw [hplainEmpty] at hinc
        exact List.noConfusion hinc

/-- Across the whole gather loop: first-entry multihashes are stable once
defined, and every merged success pins them to its own first entries (for
the encrypted side, provided that success carried no plain results). -/
theorem doFindMerge_fold_heads (rs : List SgFind) (s st : DoFindState)
    (h : rs.foldlM doFindStep s = .ok st) :
    (∀ m, headMh s.resp.MultihashResults = some m →
      headMh st.resp.MultihashResults = some m)
    ∧ (∀ m, headEncMh s.resp.EncryptedMultihashResults = some m →
      headEncMh st.resp.EncryptedMultihashResults = some m)
    ∧ (∀ b rsp n0 t, SgFind.success b rsp ∈ rs → rsp.MultihashResults = n0 :: t →
      headMh st.resp.MultihashResults = some n0.Multihash)
    ∧ (∀ b rsp n0 t, SgFind.success b rsp ∈ rs → rsp.MultihashResults = [] →
      rsp.EncryptedMultihashResults = n0 :: t →
      headEncMh st.resp.EncryptedMultihashResults = some n0.Multihash) := by
  induction rs generalizing s with
  | nil =>
    simp only [List.foldlM_nil] at h
    injection h with h2
    subst h2
    refine ⟨fun m hm => hm, fun m hm => hm, ?_, ?_⟩
    · intro b rsp n0 t hmem
      exact absurd hmem (List.not_mem_nil _)
    · intro b rsp n0 t hmem
      exact absurd hmem (List.not_mem_nil _)
  | cons r rest ih =>
    simp only [List.foldlM_cons] at h
    cases hstep : doFindStep s r with
    | error e =>
      rw [hstep] at h
      exact Except.noConfusion h
    | ok s1 =>
      rw [hstep] at h
      have h' : rest.foldlM doFindStep s1 = .ok st := h
      have IH := ih s1 h'
      have HS := doFindStep_heads hstep
      refine ⟨?_, ?_, ?_, ?_⟩
      · intro m hm
        exact IH.1 m (HS.1 m hm)
      · intro m hm
        exact IH.2.1 m (HS.2.1 m hm)
      · intro b rsp n0 t hmem hmr
        rcases List.mem_cons.mp hmem with heq | hmem'
        · exact IH.1 n0.Multihash (HS.2.2.1 b rsp n0 t heq.symm hmr)
        · exact IH.2.2.1 b rsp n0 t hmem' hmr
      · intro b rsp n0 t hmem hpe hmr
        rcases List.mem_cons.mp hmem with heq | hmem'
        · exact IH.2.1 n0.Multihash (HS.2.2.2 b rsp n0 t heq.symm hpe hmr)
        · exact IH.2.2.2 b rsp n0 t hmem' hpe hmr

/-- C3 (counterexample): the claim also promises 500 when two responses
disagree on the first encrypted entry's multihash, but the duplicate
skip (`continue outer`) in the plain merge can jump past the encrypted
conflict check: here both responses carry the same plain entry and
provider result, so merging the second hits a duplicate and its
conflicting encrypted entry (multihash `[6]` against the merged `[5]`)
is never compared — the aggregation returns 200, not 500. -/
theorem doFind_conflict_counterexample :
    doFindResult
        [SgFind.success .plain ⟨[⟨[9], [⟨[1], [], ⟨[10], []⟩⟩]⟩], [⟨[5], [[100]]⟩]⟩,
         SgFind.success .plain ⟨[⟨[9], [⟨[1], [], ⟨[10], []⟩⟩]⟩], [⟨[6], [[101]]⟩]⟩]
      = (200, some ⟨[⟨[9], [⟨[1], [], ⟨[10], []⟩⟩]⟩], [⟨[5], [[100]]⟩]⟩)
    ∧ headEncMh [(⟨[5], [[100]]⟩ : EncryptedMultihashResult)] = some [5]
    ∧ headEncMh [(⟨[6], [[101]]⟩ : EncryptedMultihashResult)] = some [6]
    ∧ ([5] : Bytes) ≠ [6] := by
  refine ⟨rfl, rfl, rfl, ?_⟩
  decide

/-- C3 (amended): if two gathered responses disagree on the multihash of
their first plain entry, or two gathered responses carrying no plain
results disagree on the multihash of their first encrypted entry, the
aggregation stops and returns 500 with an empty body.  (Without the
no-plain-results proviso the duplicate skip can bypass the encrypted
check, as the counterexample shows.) -/
theorem doFind_conflict_500 (rs : List SgFind) (b1 b2 : BackendKind)
    (r1 r2 : FindResponse)
    (h1 : SgFind.success b1 r1 ∈ rs) (h2 : SgFind.success b2 r2 ∈ rs)
    (hconf : (∃ m1 m2, headMh r1.MultihashResults = some m1
        ∧ headMh r2.MultihashResults = some m2 ∧ m1 ≠ m2)
      ∨ (r1.MultihashResults = [] ∧ r2.MultihashResults = []
        ∧ ∃ m1 m2, headEncMh r1.EncryptedMultihashResults = some m1
          ∧ headEncMh r2.EncryptedMultihashResults = some m2 ∧ m1 ≠ m2)) :
    doFindResult rs = (500, none) := by
  cases hmerge : doFindMerge rs with
  | error e =>
    unfold doFindResult
    rw [hmerge]
  | ok st =>
    exfalso
    have H := doFindMerge_fold_heads rs initDoFindState st hmerge
    rcases hconf with ⟨m1, m2, hm1, hm2, hne⟩ | ⟨he1, he2, m1, m2, hm1, hm2, hne⟩
    · rcases headMh_eq_some hm1 with ⟨mr1, t1, hl1, hmh1⟩
      rcases headMh_eq_some hm2 with ⟨mr2, t2, hl2, hmh2⟩
      have e1 := H.2.2.1 b1 r1 mr1 t1 h1 hl1
      have e2 := H.2.2.1 b2 r2 mr2 t2 h2 hl2
      rw [e1] at e2
      injection e2 with e3
      exact hne (hmh1 ▸ hmh2 ▸ e3)
    · rcases headEncMh_eq_some hm1 with ⟨mr1, t1, hl1, hmh1⟩
      rcases headEncMh_eq_some hm2 with ⟨mr2, t2, hl2, hmh2⟩
      have e1 := H.2.2.2 b1 r1 mr1 t1 h1 he1 hl1
      have e2 := H.2.2.2 b2 r2 mr2 t2 h2 he2 hl2
      rw [e1] at e2
      injection e2 with e3
      exact hne (hmh1 ▸ hmh2 ▸ e3)

/-- C3 witness: two gathered responses with conflicting first plain
multihashes make the aggregation answer 500 with no body. -/
theorem doFind_conflict_500_witness :
    doFindResult
        [SgFind.success .plain ⟨[⟨[1], [⟨[1], [], ⟨[10], []⟩⟩]⟩], []⟩,
         SgFind.success .plain ⟨[⟨[2], [⟨[1], [], ⟨[10], []⟩⟩]⟩], []⟩]
      = (500, none) :=
  doFind_conflict_500
    [SgFind.success .plain ⟨[⟨[1], [⟨[1], [], ⟨[10], []⟩⟩]⟩], []⟩,
     SgFind.success .plain ⟨[⟨[2], [⟨[1], [], ⟨[10], []⟩⟩]⟩], []⟩]
    .plain .plain
    ⟨[⟨[1], [⟨[1], [], ⟨[10], []⟩⟩]⟩], []⟩
    ⟨[⟨[2], [⟨[1], [], ⟨[10], []⟩⟩]⟩], []⟩
    (by decide) (by decide)
    (Or.inl ⟨[1], [2], rfl, rfl, by decide⟩)

/-- The duplicate test is exactly equality of dedup pairs. -/
theorem sameProviderIdentity_iff (rr pr : ProviderResult) :
    sameProviderIdentity rr pr = true ↔ prPair rr = prPair pr := by
  simp [sameProviderIdentity, prPair, Prod.ext_iff, Bool.and_eq_true, beq_iff_eq]

/-- Reduction of the merge loop on a non-empty incoming list. -/
theorem mergeProviderResults_cons (b : BackendKind) (cur : List ProviderResult)
    (pr : ProviderResult) (rest : List ProviderResult) (fc fr : Bool) :
    mergeProviderResults b cur (pr :: rest) fc fr =
      if cur.any (fun rr => sameProviderIdentity rr pr) then (cur, fc, fr, true)
      else mergeProviderResults b (cur ++ [pr]) rest
        (updateFoundFlags b fc fr).1 (updateFoundFlags b fc fr).2 := rfl

/-- The merge loop preserves pairwise-distinct dedup pairs: an element is
appended only after being compared against every accumulated element. -/
theorem mergeProviderResults_nodup (b : BackendKind) (inc : List ProviderResult) :
    ∀ cur fc fr, (cur.map prPair).Nodup →
      (((mergeProviderResults b cur inc fc fr).1).map prPair).Nodup := by
  induction inc with
  | nil =>
    intro cur fc fr h
    exact h
  | cons pr rest ih =>
    intro cur fc fr h
    rw [mergeProviderResults_cons]
    split
    · exact h
    · next hany =>
      apply ih
      have hnotin : prPair pr ∉ cur.map prPair := by
        intro hmem
        rcases List.mem_map.mp hmem with ⟨rr, hrr, hpe⟩
        exact hany (List.any_eq_true.mpr ⟨rr, hrr,
          (sameProviderIdentity_iff rr pr).mpr hpe⟩)
      rw [List.map_append]
      simp [List.nodup_append, h, hnotin]

/-- Every element of the merge loop's output comes from the accumulated
list or the incoming list. -/
theorem mergeProviderResults_mem (b : BackendKind) (inc : List ProviderResult) :
    ∀ cur fc fr pr', pr' ∈ (mergeProviderResults b cur inc fc fr).1 →
      pr' ∈ cur ∨ pr' ∈ inc := by
  induction inc with
  | nil =>
    intro cur fc fr pr' h
    exact Or.inl h
  | cons pr rest ih =>
    intro cur fc fr pr' h
    rw [mergeProviderResults_cons] at h
    split at h
    · exact Or.inl h
    · rcases ih (cur ++ [pr]) _ _ pr' h with h2 | h2
      · rcases List.mem_append.mp h2 with h3 | h3
        · exact Or.inl h3
        · exact Or.inr (List.mem_cons.mpr (Or.inl (List.mem_singleton.mp h3)))
      · exact Or.inr (List.mem_cons_of_mem _ h2)

/-- After a successful gather iteration the plain result list is fixed by
the plain half (the encrypted half never touches it). -/
theorem doFindStep_success_MR {st : DoFindState} {b : BackendKind}
    {rsp : FindResponse} {st1 : DoFindState}
    (h : doFindStep st (.success b rsp) = .ok st1) :
    ∃ p, doFindStepPlain b st rsp.MultihashResults = .ok p
      ∧ st1.resp.MultihashResults = p.1.resp.MultihashResults := by
  rcases doFindStep_success_inv h with ⟨p, hp, hcase⟩
  refine ⟨p, hp, ?_⟩
  rcases hcase with ⟨_, h'⟩ | ⟨_, henc⟩
  · rw [h']
  · rcases doFindStepEnc_inv henc with ⟨_, h'⟩ | ⟨_, _, _, _, _, h'⟩
      | ⟨_, _, _, _, _, _, _, _, h'⟩
    · rw [h']
    · exact h'
    · exact h'

/-- One gather iteration preserves distinct dedup pairs in the first
plain entry, given that the merged response's own first entry has
distinct pairs. -/
theorem doFindStep_head_nodup {st : DoFindState} {r : SgFind} {st1 : DoFindState}
    (h : doFindStep st r = .ok st1)
    (hs : ∀ mr0, st.resp.MultihashResults.head? = some mr0 →
      (mr0.ProviderResults.map prPair).Nodup)
    (hr : ∀ b rsp mr2, r = SgFind.success b rsp →
      rsp.MultihashResults.head? = some mr2 → (mr2.ProviderResults.map prPair).Nodup) :
    ∀ mr1, st1.resp.MultihashResults.head? = some mr1 →
      (mr1.ProviderResults.map prPair).Nodup := by
  intro mr1 hmr1
  cases r with
  | failure =>
    have h' : Except.ok { st with gatherErrs := st.gatherErrs + 1 } = .ok st1 := h
    injection h' with h2
    subst h2
    exact hs mr1 hmr1
  | success b rsp =>
    rcases doFindStep_success_MR h with ⟨p, hp, hstMR⟩
    rw [hstMR] at hmr1
    rcases doFindStepPlain_inv hp with ⟨_, hpst, _⟩ | ⟨new0, t0, hinc, _, hpmr, _, _⟩
      | ⟨new0, t0, cur0, rest0, hinc, hmr, _, hpmr, _⟩
    · rw [hpst] at hmr1
      exact hs mr1 hmr1
    · rw [hpmr] at hmr1
      have h2 : some new0 = some mr1 := hmr1
      injection h2 with h3
      subst h3
      exact hr b rsp new0 rfl (by rw [hinc]; rfl)
    · rw [hpmr] at hmr1
      have h2 : some ({ cur0 with ProviderResults :=
          (mergeProviderResults b cur0.ProviderResults new0.ProviderResults
            st.foundCaskade st.foundRegular).1 }) = some mr1 := hmr1
      injection h2 with h3
      subst h3
      have hcur : (cur0.ProviderResults.map prPair).Nodup :=
        hs cur0 (by rw [hmr]; rfl)
      exact mergeProviderResults_nodup b new0.ProviderResults
        cur0.ProviderResults st.foundCaskade st.foundRegular hcur

/-- Every provider result in the first plain entry after one gather
iteration was already merged or comes from that iteration's response. -/
theorem doFindStep_head_origin {st : DoFindState} {r : SgFind} {st1 : DoFindState}
    (h : doFindStep st r = .ok st1) :
    ∀ mr1, st1.resp.MultihashResults.head? = some mr1 →
      ∀ pr ∈ mr1.ProviderResults,
        (∃ mr0, st.resp.MultihashResults.head? = some mr0 ∧ pr ∈ mr0.ProviderResults)
        ∨ ∃ b rsp mr2, r = SgFind.success b rsp
            ∧ rsp.MultihashResults.head? = some mr2 ∧ pr ∈ mr2.ProviderResults := by
  intro mr1 hmr1 pr hpr
  cases r with
  | failure =>
    have h' : Except.ok { st with gatherErrs := st.gatherErrs + 1 } = .ok st1 := h
    injection h' with h2
    subst h2
    exact Or.inl ⟨mr1, hmr1, hpr⟩
  | success b rsp =>
    rcases doFindStep_success_MR h with ⟨p, hp, hstMR⟩
    rw [hstMR] at hmr1
    rcases doFindStepPlain_inv hp with ⟨_, hpst, _⟩ | ⟨new0, t0, hinc, _, hpmr, _, _⟩
      | ⟨new0, t0, cur0, rest0, hinc, hmr, _, hpmr, _⟩
    · rw [hpst] at hmr1
      exact Or.inl ⟨mr1, hmr1, hpr⟩
    · rw [hpmr] at hmr1
      have h2 : some new0 = some mr1 := hmr1
      injection h2 with h3
      subst h3
      exact Or.inr ⟨b, rsp, new0, rfl, by rw [hinc]; rfl, hpr⟩
    · rw [hpmr] at hmr1
      have h2 : some ({ cur0 with ProviderResults :=
          (mergeProviderResults b cur0.ProviderResults new0.ProviderResults
            st.foundCaskade st.foundRegular).1 }) = some mr1 := hmr1
      injection h2 with h3
      subst h3
      rcases mergeProviderResults_mem b new0.ProviderResults
          cur0.ProviderResults st.foundCaskade st.foundRegular pr hpr with h4 | h4
      · exact Or.inl ⟨cur0, by rw [hmr]; rfl, h4⟩
      · exact Or.inr ⟨b, rsp, new0, rfl, by rw [hinc]; rfl, h4⟩

/-- Across the whole gather loop, the first plain entry keeps
pairwise-distinct dedup pairs, given that every gathered response's own
first entry does. -/
theorem doFindMerge_fold_dedup (rs : List SgFind) (s st : DoFindState)
    (h : rs.foldlM doFindStep s = .ok st)
    (hnd : ∀ b rsp mr2, SgFind.success b rsp ∈ rs →
      rsp.MultihashResults.head? = some mr2 → (mr2.ProviderResults.map prPair).Nodup)
    (hs : ∀ mr0, s.resp.MultihashResults.head? = some mr0 →
      (mr0.ProviderResults.map prPair).Nodup) :
    ∀ mr1, st.resp.MultihashResults.head? = some mr1 →
      (mr1.ProviderResults.map prPair).Nodup := by
  induction rs generalizing s with
  | nil =>
    simp only [List.foldlM_nil] at h
    injection h with h2
    subst h2
    exact hs
  | cons r rest ih =>
    simp only [List.foldlM_cons] at h
    cases hstep : doFindStep s r with
    | error e =>
      rw [hstep] at h
      exact Except.noConfusion h
    | ok s1 =>
      rw [hstep] at h
      have h' : rest.foldlM doFindStep s1 = .ok st := h
      refine ih s1 h' ?_ ?_
      · intro b rsp mr2 hmem hh
        exact hnd b rsp mr2 (List.mem_cons_of_mem _ hmem) hh
      · exact doFindStep_head_nodup hstep hs fun b rsp mr2 hre hh =>
          hnd b rsp mr2 (by rw [hre]; exact List.mem_cons_self _ _) hh

/-- Across the whole gather loop, every provider result in the first
plain entry originates from the initial state or from some gathered
response's first entry. -/
theorem doFindMerge_fold_origin (rs : List SgFind) (s st : DoFindState)
    (h : rs.foldlM doFindStep s = .ok st) :
    ∀ mr1, st.resp.MultihashResults.head? = some mr1 →
      ∀ pr ∈ mr1.ProviderResults,
        (∃ mr0, s.resp.MultihashResults.head? = some mr0 ∧ pr ∈ mr0.ProviderResults)
        ∨ ∃ b rsp mr2, SgFind.success b rsp ∈ rs
            ∧ rsp.MultihashResults.head? = some mr2 ∧ pr ∈ mr2.ProviderResults := by
  induction rs generalizing s with
  | nil =>
    simp only [List.foldlM_nil] at h
    injection h with h2
    subst h2
    intro mr1 hmr1 pr hpr
    exact Or.inl ⟨mr1, hmr1, hpr⟩
  | cons r rest ih =>
    simp only [List.foldlM_cons] at h
    cases hstep : doFindStep s r with
    | error e =>
      rw [hstep] at h
      exact Except.noConfusion h
    | ok s1 =>
      rw [hstep] at h
      have h' : rest.foldlM doFindStep s1 = .ok st := h
      intro mr1 hmr1 pr hpr
      rcases ih s1 h' mr1 hmr1 pr hpr with ⟨mr0, hmr0, hpr0⟩ | ⟨b, rsp, mr2, hmem, hh, hpr2⟩
      · rcases doFindStep_head_origin hstep mr0 hmr0 pr hpr0 with
          ⟨mr0', hmr0', hpr0'⟩ | ⟨b, rsp, mr2, hre, hh, hpr2⟩
        · exact Or.inl ⟨mr0', hmr0', hpr0'⟩
        · exact Or.inr ⟨b, rsp, mr2, by rw [hre]; exact List.mem_cons_self _ _, hh, hpr2⟩
      · exact Or.inr ⟨b, rsp, mr2, List.mem_cons_of_mem _ hmem, hh, hpr2⟩

/-- C2 (counterexample): the duplicate skip (`continue outer`) drops the
rest of a response once one of its provider results duplicates an
already-merged one.  Backend one returns `(C1, P1)`; backend two returns
`(C1, P1)` followed by the distinct pair `(C2, P2)` — the merged response
contains only `(C1, P1)`, so a distinct pair returned by a gathered
backend is missing from the merge. -/
theorem doFind_dedup_counterexample :
    doFindResult
        [SgFind.success .plain ⟨[⟨[9], [⟨[1], [], ⟨[10], []⟩⟩]⟩], []⟩,
         SgFind.success .plain
           ⟨[⟨[9], [⟨[1], [], ⟨[10], []⟩⟩, ⟨[2], [], ⟨[20], []⟩⟩]⟩], []⟩]
      = (200, some ⟨[⟨[9], [⟨[1], [], ⟨[10], []⟩⟩]⟩], []⟩)
    ∧ (⟨[2], [], ⟨[20], []⟩⟩ : ProviderResult)
        ∈ [(⟨[1], [], ⟨[10], []⟩⟩ : ProviderResult), ⟨[2], [], ⟨[20], []⟩⟩]
    ∧ prPair ⟨[2], [], ⟨[20], []⟩⟩ ≠ prPair ⟨[1], [], ⟨[10], []⟩⟩
    ∧ (⟨[2], [], ⟨[20], []⟩⟩ : ProviderResult)
        ∉ [(⟨[1], [], ⟨[10], []⟩⟩ : ProviderResult)] := by
  exact ⟨rfl, by decide, by decide, by decide⟩

/-- C2 (amended): a provider result whose `(ContextID, Provider.ID)` pair
is byte-equal to an already-merged one is never added again — when every
gathered response's first entry is internally free of duplicate pairs,
the merged first entry's pairs are pairwise distinct — and every merged
provider result comes from some gathered response's first entry.  (Not
every distinct pair from every backend is merged: once a response hits a
duplicate, its remaining results are skipped, as the counterexample
shows.) -/
theorem doFind_dedup_merge (rs : List SgFind) (st : DoFindState)
    (h : doFindMerge rs = .ok st)
    (hnd : ∀ b rsp mr2, SgFind.success b rsp ∈ rs →
      rsp.MultihashResults.head? = some mr2 → (mr2.ProviderResults.map prPair).Nodup) :
    ∀ mr1, st.resp.MultihashResults.head? = some mr1 →
      (mr1.ProviderResults.map prPair).Nodup
      ∧ ∀ pr ∈ mr1.ProviderResults, ∃ b rsp mr2,
          SgFind.success b rsp ∈ rs ∧ rsp.MultihashResults.head? = some mr2
          ∧ pr ∈ mr2.ProviderResults := by
  intro mr1 hmr1
  constructor
  · exact doFindMerge_fold_dedup rs initDoFindState st h hnd
      (fun mr0 hmr0 => Option.noConfusion hmr0) mr1 hmr1
  · intro pr hpr
    rcases doFindMerge_fold_origin rs initDoFindState st h mr1 hmr1 pr hpr with
      ⟨mr0, hmr0, _⟩ | h4
    · exact Option.noConfusion hmr0
    · exact h4

/-- C2 witness: two backends each return the provider pair `(C1, P1)` for
the same multihash; the merged entry lists it once with distinct pairs,
and it originates from a gathered response. -/
theorem doFind_dedup_merge_witness :
    (([(⟨[1], [], ⟨[10], []⟩⟩ : ProviderResult)].map prPair).Nodup)
    ∧ ∀ pr ∈ [(⟨[1], [], ⟨[10], []⟩⟩ : ProviderResult)], ∃ b rsp mr2,
        SgFind.success b rsp ∈
          [SgFind.success .plain ⟨[⟨[9], [⟨[1], [], ⟨[10], []⟩⟩]⟩], []⟩,
           SgFind.success .plain ⟨[⟨[9], [⟨[1], [], ⟨[10], []⟩⟩]⟩], []⟩]
        ∧ rsp.MultihashResults.head? = some mr2 ∧ pr ∈ mr2.ProviderResults :=
  doFind_dedup_merge
    [SgFind.success .plain ⟨[⟨[9], [⟨[1], [], ⟨[10], []⟩⟩]⟩], []⟩,
     SgFind.success .plain ⟨[⟨[9], [⟨[1], [], ⟨[10], []⟩⟩]⟩], []⟩]
    ⟨⟨[⟨[9], [⟨[1], [], ⟨[10], []⟩⟩]⟩], []⟩, 0, false, true⟩
    rfl
    (by
      intro b rsp mr2 hmem hh
      have hrsp : rsp = ⟨[⟨[9], [⟨[1], [], ⟨[10], []⟩⟩]⟩], []⟩ := by
        simp only [List.mem_cons, List.not_mem_nil, or_false, SgFind.success.injEq] at hmem
        rcases hmem with ⟨_, hr⟩ | ⟨_, hr⟩ <;> exact hr
      subst hrsp
      have h2 : some (⟨[9], [⟨[1], [], ⟨[10], []⟩⟩]⟩ : MultihashResult) = some mr2 := hh
      injection h2 with h3
      subst h3
      decide)
    ⟨[9], [⟨[1], [], ⟨[10], []⟩⟩]⟩ rfl

end Indexstar
